import Mathlib

/-!
Verification of the `astar-helper` library: an indexed binary min-heap
(`OpenList` in `src/open_list.rs`) and two A* search drivers
(`untraced_astar` in `src/untraced/untraced_astar.rs`,
`traced_astar` in `src/traced/traced_astar.rs`).

The Rust code is shallowly embedded: `Vec<(K, V)>` becomes `List (K × V)`,
`HashMap<K, usize>` becomes `K → Option Nat` (only `get`/`insert`/`remove`
are used by the code, all of which are order-independent),
`HashSet<K>` becomes a duplicate-free `List K`
(`insert`/`contains`/`len` are used), and `HashMap<K, W>` (the traced
closed map, whose `len` and removal order matter) becomes an association
list `List (K × W)`.  The `AStarState` trait becomes a record of functions.
Fallible array indexing (a Rust panic) is modelled with `Option`: the only
operation of the library that can index out of bounds is
`OpenList::insert` (via a dangling map entry), so `insert` returns
`Option`, while every other operation only indexes at positions it has
itself bounds-checked and is therefore total.
-/

set_option maxHeartbeats 1000000
set_option linter.unusedSectionVars false
set_option linter.unusedVariables false

universe u v w

/-- The part of the Rust `AStarState` trait that `OpenList` actually
consumes: `key()` (used by `pop`) and `f()` (used for ordering).
(`g`, `h` and `is_goal` are never called by `open_list.rs`.) -/
structure AOps (K : Type u) (V : Type v) where
  key : V → K
  f : V → Nat

/-- `HashMap::insert` for the key-to-index map (`K → Option Nat`). -/
def mset {K : Type u} [DecidableEq K] (m : K → Option Nat) (k : K) (i : Nat) :
    K → Option Nat :=
  fun x => if x = k then some i else m x

/-- `HashMap::remove` for the key-to-index map. -/
def mdel {K : Type u} [DecidableEq K] (m : K → Option Nat) (k : K) :
    K → Option Nat :=
  fun x => if x = k then none else m x

/-- `OpenList` from `src/open_list.rs`: a dense binary heap of
`(key, state)` pairs plus a key-to-heap-position map. -/
structure OpenList (K : Type u) (V : Type v) where
  heap : List (K × V)
  map : K → Option Nat

/-- `Vec::swap` (total model; every call site of the Rust code passes
in-bounds indices, where this coincides with the source). -/
def lswap {α : Type u} (l : List α) (i j : Nat) : List α :=
  match l[i]?, l[j]? with
  | some a, some b => (l.set i b).set j a
  | _, _ => l

namespace OpenList

variable {K : Type u} {V : Type v} [DecidableEq K]

/-- `OpenList::new`. -/
def empty : OpenList K V := ⟨[], fun _ => none⟩

/-- `OpenList::is_empty`. -/
def isEmpty (ol : OpenList K V) : Bool := ol.heap.isEmpty

/-- `OpenList::min`: `self.heap.first().map(|(_, value)| value)`. -/
def minVal (ol : OpenList K V) : Option V := ol.heap.head?.map (·.2)

/-- `OpenList::swap`: swap two heap slots and repoint the map at the two
keys now stored there. -/
def swapOp (ol : OpenList K V) (i j : Nat) : OpenList K V :=
  match (lswap ol.heap i j)[i]?, (lswap ol.heap i j)[j]? with
  | some ei, some ej =>
    ⟨lswap ol.heap i j, mset (mset ol.map ei.1 i) ej.1 j⟩
  | _, _ => ⟨lswap ol.heap i j, ol.map⟩

theorem lswap_length {α : Type u} (l : List α) (i j : Nat) :
    (lswap l i j).length = l.length := by
  unfold lswap
  cases hi : l[i]? <;> cases hj : l[j]? <;> simp

theorem set_get_self {α : Type u} (l : List α) (i : Nat) (hi : i < l.length) :
    l.set i (l.get ⟨i, hi⟩) = l := by
  apply List.ext_getElem?
  intro x
  by_cases hx : x = i
  · subst hx
    rw [List.getElem?_set_self hi, List.getElem?_eq_getElem hi]
    rfl
  · rw [List.getElem?_set_ne (by omega)]

theorem lswap_getElem? {α : Type u} (l : List α) (i j : Nat)
    (hi : i < l.length) (hj : j < l.length) (x : Nat) :
    (lswap l i j)[x]? =
      if x = j then l[i]? else if x = i then l[j]? else l[x]? := by
  unfold lswap
  rw [List.getElem?_eq_getElem hi, List.getElem?_eq_getElem hj]
  dsimp only
  by_cases hxj : x = j
  · subst hxj
    rw [List.getElem?_set_self (by simpa using hj), if_pos rfl]
  · by_cases hxi : x = i
    · subst hxi
      rw [List.getElem?_set_ne (by omega), List.getElem?_set_self hi,
        if_neg hxj, if_pos rfl]
    · rw [List.getElem?_set_ne (by omega), List.getElem?_set_ne (by omega),
        if_neg hxj, if_neg hxi]

theorem cons_get_set_perm {α : Type u} :
    ∀ (t : List α) (j : Nat) (hj : j < t.length) (x : α),
      List.Perm (t.get ⟨j, hj⟩ :: t.set j x) (x :: t)
  | b :: t, 0, _, x => List.Perm.swap x b t
  | b :: t, j + 1, hj, x => by
    have hj' : j < t.length := by simpa using hj
    have step1 : List.Perm ((b :: t).get ⟨j + 1, hj⟩ :: (b :: t).set (j + 1) x)
        (b :: t.get ⟨j, hj'⟩ :: t.set j x) := by
      simpa using List.Perm.swap b (t.get ⟨j, hj'⟩) (t.set j x)
    exact step1.trans ((List.Perm.cons b (cons_get_set_perm t j hj' x)).trans
      (List.Perm.swap x b t))

theorem lswap_perm {α : Type u} :
    ∀ (l : List α) (i j : Nat), List.Perm (lswap l i j) l := by
  have key : ∀ (l : List α) (i j : Nat), i < j →
      ∀ (hi : i < l.length) (hj : j < l.length),
      List.Perm ((l.set i (l.get ⟨j, hj⟩)).set j (l.get ⟨i, hi⟩)) l := by
    intro l
    induction l with
    | nil => intro i j hij hi; simp at hi
    | cons a t ih =>
      intro i j hij hi hj
      match i, j with
      | 0, jj + 1 =>
        have hjj : jj < t.length := by simpa using hj
        have heq : ((a :: t).set 0 ((a :: t).get ⟨jj + 1, hj⟩)).set (jj + 1)
            ((a :: t).get ⟨0, hi⟩) = t.get ⟨jj, hjj⟩ :: t.set jj a := by simp
        rw [heq]
        exact cons_get_set_perm t jj hjj a
      | ii + 1, jj + 1 =>
        have hii : ii < t.length := by simpa using hi
        have hjj : jj < t.length := by simpa using hj
        have heq : ((a :: t).set (ii + 1) ((a :: t).get ⟨jj + 1, hj⟩)).set (jj + 1)
            ((a :: t).get ⟨ii + 1, hi⟩) =
            a :: (t.set ii (t.get ⟨jj, hjj⟩)).set jj (t.get ⟨ii, hii⟩) := by simp
        rw [heq]
        exact List.Perm.cons a (ih ii jj (by omega) hii hjj)
  intro l i j
  rcases Nat.lt_or_ge i l.length with hi' | hi'
  · rcases Nat.lt_or_ge j l.length with hj' | hj'
    · have hred : lswap l i j =
          (l.set i (l.get ⟨j, hj'⟩)).set j (l.get ⟨i, hi'⟩) := by
        unfold lswap
        rw [List.getElem?_eq_getElem hi', List.getElem?_eq_getElem hj']
        rfl
      rw [hred]
      rcases Nat.lt_trichotomy i j with hij | hij | hij
      · exact key l i j hij hi' hj'
      · subst hij
        rw [List.set_set, set_get_self]
      · have base := key l j i hij hj' hi'
        have hcomm : (l.set i (l.get ⟨j, hj'⟩)).set j (l.get ⟨i, hi'⟩) =
            (l.set j (l.get ⟨i, hi'⟩)).set i (l.get ⟨j, hj'⟩) :=
          List.set_comm _ _ _ (by omega)
        rw [hcomm]
        exact base
    · unfold lswap
      rw [List.getElem?_eq_none (show l.length ≤ j by omega)]
      rcases l[i]? with _ | b <;> exact List.Perm.refl l
  · unfold lswap
    rw [List.getElem?_eq_none (show l.length ≤ i by omega)]

theorem swapOp_length (ol : OpenList K V) (i j : Nat) :
    (ol.swapOp i j).heap.length = ol.heap.length := by
  unfold swapOp
  split <;> simp [lswap_length]

/-- The `f()` value stored at heap slot `i` (`0` out of bounds; every
read in the source is in bounds). -/
def fAt (a : AOps K V) (l : List (K × V)) (i : Nat) : Nat :=
  match l[i]? with
  | some e => a.f e.2
  | none => 0

/-- `OpenList::bubble_up`: sift the entry at `current` towards the root
while its `f()` is strictly smaller than its parent's. -/
def bubbleUp (a : AOps K V) (ol : OpenList K V) (current : Nat) :
    OpenList K V :=
  if h : current = 0 then ol
  else
    if fAt a ol.heap current ≥ fAt a ol.heap ((current - 1) / 2) then ol
    else bubbleUp a (ol.swapOp current ((current - 1) / 2)) ((current - 1) / 2)
termination_by current
decreasing_by
  have h1 : (current - 1) / 2 ≤ current - 1 := Nat.div_le_self _ 2
  omega

/-- First half of the `smallest` computation inside one iteration of
`OpenList::buble_down` [sic]: prefer the left child when it exists and
has strictly smaller `f()`. -/
def smallest1 (a : AOps K V) (l : List (K × V)) (current : Nat) : Nat :=
  if 2 * current + 1 < l.length ∧ fAt a l (2 * current + 1) < fAt a l current
  then 2 * current + 1 else current

/-- The full `smallest` computation of one `buble_down` iteration: the
index among `current` and its existing children holding the smallest
`f()` (children win only on strict inequality). -/
def smallest (a : AOps K V) (l : List (K × V)) (current : Nat) : Nat :=
  if 2 * current + 2 < l.length ∧
      fAt a l (2 * current + 2) < fAt a l (smallest1 a l current)
  then 2 * current + 2 else smallest1 a l current

theorem smallest1_cases (a : AOps K V) (l : List (K × V)) (current : Nat) :
    smallest1 a l current = current ∨
      (current < smallest1 a l current ∧ smallest1 a l current < l.length) := by
  unfold smallest1
  split <;> omega

theorem smallest_cases (a : AOps K V) (l : List (K × V)) (current : Nat) :
    smallest a l current = current ∨
      (current < smallest a l current ∧ smallest a l current < l.length) := by
  unfold smallest
  rcases smallest1_cases a l current with h | h <;> split <;> omega

/-- `OpenList::buble_down` [sic]: sift the entry at `current` down,
repeatedly swapping with the smaller-`f()` child. -/
def bubleDown (a : AOps K V) (ol : OpenList K V) (current : Nat) :
    OpenList K V :=
  if smallest a ol.heap current = current then ol
  else bubleDown a (ol.swapOp current (smallest a ol.heap current))
    (smallest a ol.heap current)
termination_by ol.heap.length - current
decreasing_by
  rename_i h
  rcases smallest_cases a ol.heap current with h' | h'
  · exact absurd h' h
  · rw [swapOp_length]; omega

/-- `OpenList::pop`: remove the last heap entry and drop the map entry
for the removed *value's* own key. -/
def pop (a : AOps K V) (ol : OpenList K V) : Option V × OpenList K V :=
  match ol.heap.getLast? with
  | none => (none, ol)
  | some e => (some e.2, ⟨ol.heap.dropLast, mdel ol.map (a.key e.2)⟩)

/-- `OpenList::extract_min`: swap the root with the last entry, pop it,
and sift the new root down. -/
def extractMin (a : AOps K V) (ol : OpenList K V) :
    Option V × OpenList K V :=
  if ol.heap.length = 0 then (none, ol)
  else
    match (ol.swapOp 0 (ol.heap.length - 1)).pop a with
    | (mv, ol2) =>
      if ol2.heap.length ≠ 0 then (mv, ol2.bubleDown a 0) else (mv, ol2)

/-- `OpenList::insert`: decrease-key insert.  If the map already has an
entry for `key`, replace the heap slot it points at only when the new
`f()` is strictly smaller (the Rust code indexes `self.heap[index]`
unchecked here, so a dangling map entry is a panic, modelled as `none`);
otherwise append and sift up. -/
def insert (a : AOps K V) (ol : OpenList K V) (key : K) (value : V) :
    Option (OpenList K V) :=
  match ol.map key with
  | some index =>
    match ol.heap[index]? with
    | none => none
    | some entry =>
      if a.f value < a.f entry.2 then
        some (bubbleUp a ⟨ol.heap.set index (key, value), ol.map⟩ index)
      else some ol
  | none =>
    some (bubbleUp a
      ⟨ol.heap ++ [(key, value)], mset ol.map key ol.heap.length⟩
      ol.heap.length)

end OpenList

/-- The Rust `UntracedState` trait: an `AStarState` plus
`generate_successors`. -/
structure UOps (K : Type u) (S : Type v) where
  key : S → K
  g : S → Nat
  h : S → Nat
  f : S → Nat
  isGoal : S → Bool
  succs : S → List S

/-- The view of an `UntracedState` that the open list consumes. -/
def UOps.toAOps {K : Type u} {S : Type v} (u : UOps K S) : AOps K S :=
  ⟨u.key, u.f⟩

/-- `HashSet::insert` on the model of the closed set (`HashSet<K>` as a
duplicate-free list). -/
def hsInsert {K : Type u} [DecidableEq K] (l : List K) (k : K) : List K :=
  if k ∈ l then l else l ++ [k]

/-- Outcome of a search driver run.  `found`/`noGoal` are the Rust
`Some`/`None` return values; `panic` is a Rust panic (out-of-bounds
index); `fuelOut` is an artifact of the embedding (the Rust `while` loop
did not finish within `fuel` iterations). -/
inductive SearchRes (R : Type u) where
  | found (r : R)
  | noGoal
  | panic
  | fuelOut
  deriving DecidableEq

/-- The successor loop body of `untraced_astar`: skip successors whose
key is closed, offer the rest to the open list. -/
def insertSuccessors {K : Type u} {S : Type v} [DecidableEq K] (u : UOps K S)
    (closed : List K) : List S → OpenList K S → Option (OpenList K S)
  | [], ol => some ol
  | s :: rest, ol =>
    if u.key s ∈ closed then insertSuccessors u closed rest ol
    else
      match OpenList.insert u.toAOps ol (u.key s) s with
      | none => none
      | some ol' => insertSuccessors u closed rest ol'

/-- The `while let Some(current) = open_list.extract_min()` loop of
`untraced_astar`, with explicit fuel. -/
def uloop {K : Type u} {S : Type v} [DecidableEq K] (u : UOps K S) :
    Nat → OpenList K S → List K → SearchRes (Nat × S)
  | 0, _, _ => .fuelOut
  | fuel + 1, ol, closed =>
    match OpenList.extractMin u.toAOps ol with
    | (none, _) => .noGoal
    | (some current, ol') =>
      if u.isGoal current then .found (closed.length, current)
      else
        let closed' := hsInsert closed (u.key current)
        match insertSuccessors u closed' (u.succs current) ol' with
        | none => .panic
        | some ol'' => uloop u fuel ol'' closed'

/-- `untraced_astar`: seed the open list with the start state under its
key, then run the loop. -/
def untracedAstar {K : Type u} {S : Type v} [DecidableEq K] (u : UOps K S)
    (fuel : Nat) (start : S) : SearchRes (Nat × S) :=
  match OpenList.insert u.toAOps OpenList.empty (u.key start) start with
  | none => .panic
  | some ol => uloop u fuel ol []

/-- The Rust `TracedState` trait: an `AStarState` plus
`generate_traced_successors` returning `(successor, change)` pairs. -/
structure TOps (K : Type u) (S : Type v) (C : Type w) where
  key : S → K
  g : S → Nat
  h : S → Nat
  f : S → Nat
  isGoal : S → Bool
  succs : S → List (S × C)

/-- `TracedStateWrapper` from `src/traced/state.rs`. -/
structure TWrap (K : Type u) (S : Type v) (C : Type w) where
  state : S
  prev_key : Option K
  change : Option C

/-- The `AStarState` impl of `TracedStateWrapper`, restricted to what the
open list consumes: every method delegates to the wrapped state. -/
def TOps.wrapOps {K : Type u} {S : Type v} {C : Type w} (t : TOps K S C) :
    AOps K (TWrap K S C) :=
  ⟨fun w => t.key w.state, fun w => t.f w.state⟩

/-- `TracedStateWrapper::generate_states`: wrap every traced successor
with the parent's key and the transition label. -/
def genStates {K : Type u} {S : Type v} {C : Type w} (t : TOps K S C)
    (w : TWrap K S C) : List (TWrap K S C) :=
  (t.succs w.state).map fun p => ⟨p.1, some (t.key w.state), some p.2⟩

/-- `HashMap::get`/`contains_key` on the model of the traced closed map
(an association list). -/
def amLookup {K : Type u} {W : Type v} [DecidableEq K] :
    List (K × W) → K → Option W
  | [], _ => none
  | e :: rest, k => if e.1 = k then some e.2 else amLookup rest k

/-- `HashMap::insert` on the closed-map model: replace in place if the
key is present, append otherwise. -/
def amInsert {K : Type u} {W : Type v} [DecidableEq K] :
    List (K × W) → K → W → List (K × W)
  | [], k, w => [(k, w)]
  | e :: rest, k, w =>
    if e.1 = k then (k, w) :: rest else e :: amInsert rest k w

/-- `HashMap::remove` on the closed-map model: return the removed value
(if any) together with the remaining entries. -/
def amRemove {K : Type u} {W : Type v} [DecidableEq K] :
    List (K × W) → K → Option W × List (K × W)
  | [], _ => (none, [])
  | e :: rest, k =>
    if e.1 = k then (some e.2, rest)
    else
      let p := amRemove rest k
      (p.1, e :: p.2)

theorem amRemove_length_lt {K : Type u} {W : Type v} [DecidableEq K]
    (l : List (K × W)) (k : K) : ∀ (w : W) (l' : List (K × W)),
    amRemove l k = (some w, l') → l'.length < l.length := by
  induction l with
  | nil => intro w l' h; simp [amRemove] at h
  | cons e rest ih =>
    intro w l' h
    unfold amRemove at h
    split at h
    · injection h with h1 h2
      subst h2
      simp
    · cases hrest : amRemove rest k with
      | mk o rest' =>
        rw [hrest] at h
        dsimp at h
        injection h with h1 h2
        subst h1
        subst h2
        have := ih w rest' hrest
        simpa using Nat.succ_lt_succ this

/-- The backtracking `while let Some(prev_state) = closed_list.remove(..)`
loop of `traced_astar`: destructively walk the closed map backwards,
pushing each consumed wrapper's `change`. -/
def walk {K : Type u} {S : Type v} {C : Type w} [DecidableEq K]
    (closed : List (K × TWrap K S C)) (curr : K) (path : List C) : List C :=
  match h : amRemove closed curr with
  | (none, _) => path
  | (some w, closed') =>
    let path1 := match w.change with
      | some c => path ++ [c]
      | none => path
    match w.prev_key with
    | some pk => walk closed' pk path1
    | none => path1
termination_by closed.length
decreasing_by
  exact amRemove_length_lt _ _ _ _ h

/-- The successor loop body of `traced_astar`. -/
def insertSuccessorsT {K : Type u} {S : Type v} {C : Type w} [DecidableEq K]
    (t : TOps K S C) (closed : List (K × TWrap K S C)) :
    List (TWrap K S C) → OpenList K (TWrap K S C) →
      Option (OpenList K (TWrap K S C))
  | [], ol => some ol
  | w :: rest, ol =>
    if (amLookup closed (t.key w.state)).isSome then
      insertSuccessorsT t closed rest ol
    else
      match OpenList.insert t.wrapOps ol (t.key w.state) w with
      | none => none
      | some ol' => insertSuccessorsT t closed rest ol'

/-- On popping a goal wrapper: push its own `change`, walk backwards from
its `prev_key` through the closed map, and reverse the collected labels. -/
def reconstruct {K : Type u} {S : Type v} {C : Type w} [DecidableEq K]
    (closed : List (K × TWrap K S C)) (w : TWrap K S C) : List C :=
  let path0 : List C := match w.change with
    | some c => [c]
    | none => []
  let path1 := match w.prev_key with
    | some pk => walk closed pk path0
    | none => path0
  path1.reverse

/-- The main loop of `traced_astar`, with explicit fuel. -/
def tloop {K : Type u} {S : Type v} {C : Type w} [DecidableEq K]
    (t : TOps K S C) :
    Nat → OpenList K (TWrap K S C) → List (K × TWrap K S C) →
      SearchRes (List C × Nat × S)
  | 0, _, _ => .fuelOut
  | fuel + 1, ol, closed =>
    match OpenList.extractMin t.wrapOps ol with
    | (none, _) => .noGoal
    | (some w, ol') =>
      if t.isGoal w.state then
        .found (reconstruct closed w, closed.length, w.state)
      else
        let succ := genStates t w
        let closed' := amInsert closed (t.key w.state) w
        match insertSuccessorsT t closed' succ ol' with
        | none => .panic
        | some ol'' => tloop t fuel ol'' closed'

/-- `traced_astar`: wrap the start state (`prev_key`/`change` absent),
seed the open list, run the loop. -/
def tracedAstar {K : Type u} {S : Type v} {C : Type w} [DecidableEq K]
    (t : TOps K S C) (fuel : Nat) (start : S) :
    SearchRes (List C × Nat × S) :=
  match OpenList.insert t.wrapOps OpenList.empty (t.key start)
      ⟨start, none, none⟩ with
  | none => .panic
  | some ol => tloop t fuel ol []

namespace OpenList

variable {K : Type u} {V : Type v} [DecidableEq K]

theorem swapOp_heap (ol : OpenList K V) (i j : Nat) :
    (ol.swapOp i j).heap = lswap ol.heap i j := by
  unfold swapOp
  split <;> rfl

theorem swapOp_perm (ol : OpenList K V) (i j : Nat) :
    List.Perm (ol.swapOp i j).heap ol.heap := by
  rw [swapOp_heap]
  exact lswap_perm _ i j

theorem fAt_lswap (a : AOps K V) (l : List (K × V)) (i j : Nat)
    (hi : i < l.length) (hj : j < l.length) (x : Nat) :
    fAt a (lswap l i j) x =
      if x = j then fAt a l i else if x = i then fAt a l j else fAt a l x := by
  unfold fAt
  rw [lswap_getElem? l i j hi hj x]
  by_cases hxj : x = j
  · rw [if_pos hxj, if_pos hxj]
  · rw [if_neg hxj, if_neg hxj]
    by_cases hxi : x = i
    · rw [if_pos hxi, if_pos hxi]
    · rw [if_neg hxi, if_neg hxi]

theorem fAt_append_left (a : AOps K V) (l l2 : List (K × V)) (x : Nat)
    (hx : x < l.length) : fAt a (l ++ l2) x = fAt a l x := by
  unfold fAt
  rw [List.getElem?_append_left hx]

theorem fAt_set_self (a : AOps K V) (l : List (K × V)) (idx : Nat) (e : K × V)
    (hidx : idx < l.length) : fAt a (l.set idx e) idx = a.f e.2 := by
  unfold fAt
  rw [List.getElem?_set_self hidx]

theorem fAt_set_ne (a : AOps K V) (l : List (K × V)) (idx : Nat) (e : K × V)
    (x : Nat) (hx : x ≠ idx) : fAt a (l.set idx e) x = fAt a l x := by
  unfold fAt
  rw [List.getElem?_set_ne (by omega)]

/-- Binary min-heap order in parent form: every non-root entry's `f()`
is at least its parent's. -/
def hord (a : AOps K V) (l : List (K × V)) : Prop :=
  ∀ j, 0 < j → j < l.length → fAt a l ((j - 1) / 2) ≤ fAt a l j

/-- Heap order except possibly on the edge into `idx` from its parent,
plus the grandparent bound over `idx`'s children: the invariant
maintained by `bubble_up`. -/
def upInv (a : AOps K V) (l : List (K × V)) (idx : Nat) : Prop :=
  (∀ j, 0 < j → j < l.length → j ≠ idx →
    fAt a l ((j - 1) / 2) ≤ fAt a l j) ∧
  (0 < idx → ∀ j, j < l.length → (j - 1) / 2 = idx →
    fAt a l ((idx - 1) / 2) ≤ fAt a l j)

theorem upInv_swap (a : AOps K V) (ol : OpenList K V) (idx : Nat)
    (h0 : idx ≠ 0) (hlt : idx < ol.heap.length)
    (hinv : upInv a ol.heap idx)
    (hdec : fAt a ol.heap idx < fAt a ol.heap ((idx - 1) / 2)) :
    upInv a (ol.swapOp idx ((idx - 1) / 2)).heap ((idx - 1) / 2) := by
  have hplt : (idx - 1) / 2 < ol.heap.length := by
    have := Nat.div_le_self (idx - 1) 2
    omega
  have hfa : ∀ x, fAt a (ol.swapOp idx ((idx - 1) / 2)).heap x =
      if x = (idx - 1) / 2 then fAt a ol.heap idx
      else if x = idx then fAt a ol.heap ((idx - 1) / 2)
      else fAt a ol.heap x := by
    intro x
    rw [swapOp_heap]
    exact fAt_lswap a ol.heap idx ((idx - 1) / 2) hlt hplt x
  have hlen : (ol.swapOp idx ((idx - 1) / 2)).heap.length = ol.heap.length :=
    swapOp_length ol _ _
  have hp_ne : (idx - 1) / 2 ≠ idx := by
    have := Nat.div_le_self (idx - 1) 2
    omega
  have eP : fAt a (ol.swapOp idx ((idx - 1) / 2)).heap ((idx - 1) / 2) =
      fAt a ol.heap idx := by
    rw [hfa]
    simp
  have eI : fAt a (ol.swapOp idx ((idx - 1) / 2)).heap idx =
      fAt a ol.heap ((idx - 1) / 2) := by
    rw [hfa]
    simp [hp_ne.symm]
  have eO : ∀ x, x ≠ (idx - 1) / 2 → x ≠ idx →
      fAt a (ol.swapOp idx ((idx - 1) / 2)).heap x = fAt a ol.heap x := by
    intro x h1 h2
    rw [hfa]
    simp [h1, h2]
  constructor
  · intro j hj0 hjlen hjp
    rw [hlen] at hjlen
    by_cases hji : j = idx
    · rw [hji, eP, eI]
      omega
    · rw [eO j hjp hji]
      by_cases hpidx : (j - 1) / 2 = idx
      · rw [hpidx, eI]
        exact hinv.2 (by omega) j hjlen hpidx
      · by_cases hpp : (j - 1) / 2 = (idx - 1) / 2
        · rw [hpp, eP]
          have h1 := hinv.1 j hj0 hjlen hji
          rw [hpp] at h1
          omega
        · rw [eO ((j - 1) / 2) hpp hpidx]
          exact hinv.1 j hj0 hjlen hji
  · intro hp0 j hjlen hpj
    rw [hlen] at hjlen
    have hgp1 : ((idx - 1) / 2 - 1) / 2 ≠ (idx - 1) / 2 := by
      have := Nat.div_le_self ((idx - 1) / 2 - 1) 2
      omega
    have hgp2 : ((idx - 1) / 2 - 1) / 2 ≠ idx := by
      have h1 := Nat.div_le_self ((idx - 1) / 2 - 1) 2
      have h2 := Nat.div_le_self (idx - 1) 2
      omega
    rw [eO (((idx - 1) / 2 - 1) / 2) hgp1 hgp2]
    have hchain := hinv.1 ((idx - 1) / 2) hp0 hplt hp_ne
    by_cases hji : j = idx
    · rw [hji, eI]
      exact hchain
    · have hj_ne_p : j ≠ (idx - 1) / 2 := by omega
      rw [eO j hj_ne_p hji]
      have hj0 : 0 < j := by omega
      have h1 := hinv.1 j hj0 hjlen hji
      rw [hpj] at h1
      omega

theorem bubbleUp_hord (a : AOps K V) :
    ∀ (idx : Nat) (ol : OpenList K V), idx < ol.heap.length →
      upInv a ol.heap idx → hord a (bubbleUp a ol idx).heap := by
  intro idx
  induction idx using Nat.strong_induction_on with
  | _ idx ih =>
    intro ol hlt hinv
    rw [bubbleUp]
    split
    · rename_i h0
      subst h0
      intro j hj0 hjlen
      exact hinv.1 j hj0 hjlen (by omega)
    · rename_i h0
      split
      · rename_i hge
        intro j hj0 hjlen
        by_cases hji : j = idx
        · subst hji
          exact hge
        · exact hinv.1 j hj0 hjlen hji
      · rename_i hlt2
        have hplt : (idx - 1) / 2 < idx := by
          have := Nat.div_le_self (idx - 1) 2
          omega
        apply ih ((idx - 1) / 2) hplt
        · rw [swapOp_length]
          omega
        · exact upInv_swap a ol idx h0 hlt hinv (by omega)

end OpenList

namespace OpenList

variable {K : Type u} {V : Type v} [DecidableEq K]

theorem smallest_eq_spec (a : AOps K V) (l : List (K × V)) (idx : Nat)
    (h : smallest a l idx = idx) :
    (2 * idx + 1 < l.length → fAt a l idx ≤ fAt a l (2 * idx + 1)) ∧
    (2 * idx + 2 < l.length → fAt a l idx ≤ fAt a l (2 * idx + 2)) := by
  unfold smallest smallest1 at h
  split_ifs at h <;> constructor <;> intro hlt <;> omega

theorem smallest_ne_spec (a : AOps K V) (l : List (K × V)) (idx : Nat)
    (h : smallest a l idx ≠ idx) :
    idx < smallest a l idx ∧ smallest a l idx < l.length ∧
    (smallest a l idx - 1) / 2 = idx ∧
    fAt a l (smallest a l idx) < fAt a l idx ∧
    (2 * idx + 1 < l.length → fAt a l (smallest a l idx) ≤ fAt a l (2 * idx + 1)) ∧
    (2 * idx + 2 < l.length → fAt a l (smallest a l idx) ≤ fAt a l (2 * idx + 2)) := by
  unfold smallest smallest1 at h ⊢
  split_ifs at h ⊢ <;> omega

/-- Heap order except possibly on the edges out of `idx` to its children,
plus the grandparent bound over `idx`'s children: the invariant
maintained by `buble_down`. -/
def downInv (a : AOps K V) (l : List (K × V)) (idx : Nat) : Prop :=
  (∀ j, 0 < j → j < l.length → (j - 1) / 2 ≠ idx →
    fAt a l ((j - 1) / 2) ≤ fAt a l j) ∧
  (0 < idx → ∀ j, j < l.length → (j - 1) / 2 = idx →
    fAt a l ((idx - 1) / 2) ≤ fAt a l j)

theorem downInv_stop (a : AOps K V) (l : List (K × V)) (idx : Nat)
    (hinv : downInv a l idx) (h : smallest a l idx = idx) : hord a l := by
  intro j hj0 hjlen
  by_cases hpj : (j - 1) / 2 = idx
  · have hspec := smallest_eq_spec a l idx h
    have hcases : j = 2 * idx + 1 ∨ j = 2 * idx + 2 := by omega
    rw [hpj]
    rcases hcases with hj | hj <;> subst hj
    · exact hspec.1 hjlen
    · exact hspec.2 hjlen
  · exact hinv.1 j hj0 hjlen hpj

theorem downInv_swap (a : AOps K V) (ol : OpenList K V) (idx : Nat)
    (hinv : downInv a ol.heap idx)
    (hne : smallest a ol.heap idx ≠ idx) :
    downInv a (ol.swapOp idx (smallest a ol.heap idx)).heap
      (smallest a ol.heap idx) := by
  obtain ⟨hlt, hslen, hpar, hdec, hb1, hb2⟩ := smallest_ne_spec a ol.heap idx hne
  have hilen : idx < ol.heap.length := by omega
  have hfa : ∀ x, fAt a (ol.swapOp idx (smallest a ol.heap idx)).heap x =
      if x = smallest a ol.heap idx then fAt a ol.heap idx
      else if x = idx then fAt a ol.heap (smallest a ol.heap idx)
      else fAt a ol.heap x := by
    intro x
    rw [swapOp_heap]
    exact fAt_lswap a ol.heap idx (smallest a ol.heap idx) hilen hslen x
  have hlen : (ol.swapOp idx (smallest a ol.heap idx)).heap.length =
      ol.heap.length := swapOp_length ol _ _
  have eS : fAt a (ol.swapOp idx (smallest a ol.heap idx)).heap
      (smallest a ol.heap idx) = fAt a ol.heap idx := by
    rw [hfa]
    simp
  have eI : fAt a (ol.swapOp idx (smallest a ol.heap idx)).heap idx =
      fAt a ol.heap (smallest a ol.heap idx) := by
    rw [hfa]
    have : idx ≠ smallest a ol.heap idx := by omega
    simp [this]
  have eO : ∀ x, x ≠ smallest a ol.heap idx → x ≠ idx →
      fAt a (ol.swapOp idx (smallest a ol.heap idx)).heap x =
        fAt a ol.heap x := by
    intro x h1 h2
    rw [hfa]
    simp [h1, h2]
  constructor
  · intro j hj0 hjlen hjp
    rw [hlen] at hjlen
    by_cases hjs : j = smallest a ol.heap idx
    · subst hjs
      rw [hpar, eS, eI]
      omega
    · by_cases hji : j = idx
      · rw [hji, eI,
          eO ((idx - 1) / 2) (by omega)
            (by have := Nat.div_le_self (idx - 1) 2; omega)]
        exact hinv.2 (by omega) (smallest a ol.heap idx) hslen hpar
      · rw [eO j hjs hji]
        by_cases hpidx : (j - 1) / 2 = idx
        · rw [hpidx, eI]
          have hcases : j = 2 * idx + 1 ∨ j = 2 * idx + 2 := by omega
          rcases hcases with hj | hj <;> subst hj
          · exact hb1 hjlen
          · exact hb2 hjlen
        · have hp_ne_s : (j - 1) / 2 ≠ smallest a ol.heap idx := hjp
          rw [eO _ hp_ne_s hpidx]
          exact hinv.1 j hj0 hjlen hpidx
  · intro hs0 j hjlen hpj
    rw [hlen] at hjlen
    rw [hpar, eI]
    have hj_gt : smallest a ol.heap idx < j := by omega
    have hj_ne_s : j ≠ smallest a ol.heap idx := by omega
    have hj_ne_i : j ≠ idx := by omega
    rw [eO j hj_ne_s hj_ne_i]
    have hj0 : 0 < j := by omega
    have h1 := hinv.1 j hj0 hjlen (by omega)
    rw [hpj] at h1
    exact h1

theorem bubleDown_hord (a : AOps K V) :
    ∀ (n : Nat) (ol : OpenList K V) (idx : Nat), ol.heap.length - idx ≤ n →
      downInv a ol.heap idx → hord a (bubleDown a ol idx).heap := by
  intro n
  induction n with
  | zero =>
    intro ol idx hbound hinv
    rw [bubleDown]
    split
    · rename_i heq
      exact downInv_stop a ol.heap idx hinv heq
    · rename_i hne
      obtain ⟨h1, h2, _⟩ := smallest_ne_spec a ol.heap idx hne
      omega
  | succ n ih =>
    intro ol idx hbound hinv
    rw [bubleDown]
    split
    · rename_i heq
      exact downInv_stop a ol.heap idx hinv heq
    · rename_i hne
      obtain ⟨h1, h2, _⟩ := smallest_ne_spec a ol.heap idx hne
      apply ih
      · rw [swapOp_length]
        omega
      · exact downInv_swap a ol idx hinv hne

end OpenList

namespace OpenList

variable {K : Type u} {V : Type v} [DecidableEq K]

theorem upInv_push (a : AOps K V) (l : List (K × V)) (e : K × V)
    (h : hord a l) : upInv a (l ++ [e]) l.length := by
  constructor
  · intro j hj0 hjlen hji
    rw [List.length_append] at hjlen
    have hjlt : j < l.length := by simp at hjlen; omega
    have hplt : (j - 1) / 2 < l.length := by
      have := Nat.div_le_self (j - 1) 2
      omega
    rw [fAt_append_left a l [e] j hjlt, fAt_append_left a l [e] _ hplt]
    exact h j hj0 hjlt
  · intro h0 j hjlen hpj
    exfalso
    rw [List.length_append] at hjlen
    simp at hjlen
    omega

theorem upInv_set (a : AOps K V) (l : List (K × V)) (idx : Nat) (e : K × V)
    (hidx : idx < l.length) (h : hord a l) (hless : a.f e.2 < fAt a l idx) :
    upInv a (l.set idx e) idx := by
  constructor
  · intro j hj0 hjlen hji
    rw [List.length_set] at hjlen
    rw [fAt_set_ne a l idx e j hji]
    by_cases hpj : (j - 1) / 2 = idx
    · rw [hpj, fAt_set_self a l idx e hidx]
      have hj := h j hj0 hjlen
      rw [hpj] at hj
      omega
    · rw [fAt_set_ne a l idx e _ hpj]
      exact h j hj0 hjlen
  · intro h0 j hjlen hpj
    rw [List.length_set] at hjlen
    have hj_ne : j ≠ idx := by omega
    have hp_ne : (idx - 1) / 2 ≠ idx := by
      have := Nat.div_le_self (idx - 1) 2
      omega
    rw [fAt_set_ne a l idx e j hj_ne, fAt_set_ne a l idx e _ hp_ne]
    have h1 := h idx h0 hidx
    have h2 := h j (by omega) hjlen
    rw [hpj] at h2
    omega

theorem insert_hord (a : AOps K V) (ol : OpenList K V) (k : K) (v : V)
    (h : hord a ol.heap) (ol' : OpenList K V)
    (hins : insert a ol k v = some ol') : hord a ol'.heap := by
  unfold insert at hins
  split at hins
  · rename_i index hmap
    split at hins
    · exact absurd hins (by simp)
    · rename_i entry hget
      have hidx : index < ol.heap.length := by
        rcases List.getElem?_eq_some_iff.mp hget with ⟨hw, _⟩
        exact hw
      split at hins
      · rename_i hless
        injection hins with hins
        subst hins
        apply bubbleUp_hord a index
        · simpa using hidx
        · apply upInv_set a ol.heap index (k, v) hidx h
          unfold fAt
          rw [hget]
          exact hless
      · injection hins with hins
        subst hins
        exact h
  · rename_i hmap
    injection hins with hins
    subst hins
    apply bubbleUp_hord
    · simp
    · exact upInv_push a ol.heap (k, v) h

theorem extractMin_hord (a : AOps K V) (ol : OpenList K V)
    (h : hord a ol.heap) : hord a ((extractMin a ol).2).heap := by
  unfold extractMin
  split
  · exact h
  · rename_i hne
    have hlen0 : 0 < ol.heap.length := by omega
    have hswlen : (ol.swapOp 0 (ol.heap.length - 1)).heap.length =
        ol.heap.length := swapOp_length ol _ _
    have hswne : (ol.swapOp 0 (ol.heap.length - 1)).heap ≠ [] := by
      intro hc
      rw [hc] at hswlen
      simp at hswlen
      omega
    rcases hp : (ol.swapOp 0 (ol.heap.length - 1)).pop a with ⟨mv, ol2⟩
    have hol2 : ol2.heap = (ol.swapOp 0 (ol.heap.length - 1)).heap.dropLast := by
      unfold pop at hp
      rw [List.getLast?_eq_getLast _ hswne] at hp
      injection hp with h1 h2
      rw [← h2]
    have hlen2 : ol2.heap.length = ol.heap.length - 1 := by
      rw [hol2, List.length_dropLast, hswlen]
    have hfa2 : ∀ x, x < ol.heap.length - 1 →
        fAt a ol2.heap x =
          if x = 0 then fAt a ol.heap (ol.heap.length - 1)
          else fAt a ol.heap x := by
      intro x hx
      unfold fAt
      rw [hol2, List.getElem?_dropLast, hswlen, if_pos hx, swapOp_heap,
        lswap_getElem? ol.heap 0 (ol.heap.length - 1) hlen0 (by omega) x,
        if_neg (by omega)]
      by_cases hx0 : x = 0
      · subst hx0
        simp
      · rw [if_neg hx0, if_neg hx0]
    have hord2 : downInv a ol2.heap 0 := by
      constructor
      · intro j hj0 hjlen hpj
        rw [hlen2] at hjlen
        have hplt : (j - 1) / 2 < ol.heap.length - 1 := by
          have := Nat.div_le_self (j - 1) 2
          omega
        rw [hfa2 j hjlen, hfa2 _ hplt, if_neg hpj,
          if_neg (show ¬j = 0 by omega)]
        exact h j hj0 (by omega)
      · intro h0
        exact absurd h0 (by omega)
    simp only [hp]
    split
    · rename_i hne2
      apply bubleDown_hord a ol2.heap.length _ 0
      · dsimp only
        omega
      · exact hord2
    · rename_i hz
      have hz' : ol2.heap.length = 0 := by simpa using hz
      intro j hj0 hjlen
      have hjlen' : j < ol2.heap.length := hjlen
      omega

end OpenList

/-- A call of the public `OpenList` mutating API: used to state properties
that hold after any sequence of `insert`/`extract_min` calls. -/
inductive HeapOp (K : Type u) (V : Type v) where
  | ins (k : K) (v : V)
  | ext

/-- Run a sequence of `insert`/`extract_min` calls from `OpenList::new`;
`none` if some `insert` panicked. -/
def runOps {K : Type u} {V : Type v} [DecidableEq K] (a : AOps K V) :
    List (HeapOp K V) → Option (OpenList K V) → Option (OpenList K V)
  | _, none => none
  | [], some ol => some ol
  | .ins k v :: rest, some ol => runOps a rest (OpenList.insert a ol k v)
  | .ext :: rest, some ol => runOps a rest (some (OpenList.extractMin a ol).2)

theorem runOps_hord {K : Type u} {V : Type v} [DecidableEq K] (a : AOps K V) :
    ∀ (ops : List (HeapOp K V)) (st : Option (OpenList K V)),
      (∀ ol0, st = some ol0 → OpenList.hord a ol0.heap) →
      ∀ ol, runOps a ops st = some ol → OpenList.hord a ol.heap := by
  intro ops
  induction ops with
  | nil =>
    intro st hst ol hrun
    cases st with
    | none => simp [runOps] at hrun
    | some ol0 =>
      unfold runOps at hrun
      injection hrun with hrun
      subst hrun
      exact hst _ rfl
  | cons op rest ih =>
    intro st hst ol hrun
    cases st with
    | none => simp [runOps] at hrun
    | some ol0 =>
      cases op with
      | ins k v =>
        unfold runOps at hrun
        apply ih (OpenList.insert a ol0 k v) _ ol hrun
        intro ol1 h1
        exact OpenList.insert_hord a ol0 k v (hst ol0 rfl) ol1 h1
      | ext =>
        unfold runOps at hrun
        apply ih (some (OpenList.extractMin a ol0).2) _ ol hrun
        intro ol1 h1
        injection h1 with h1
        subst h1
        exact OpenList.extractMin_hord a ol0 (hst ol0 rfl)

namespace OpenList

variable {K : Type u} {V : Type v} [DecidableEq K]

/-- Map-consistency of an open list: the key-to-index map is exactly the
key-to-position relation of the heap.  (Holds after any sequence of
`insert` calls, with or without matching keys.) -/
structure WFm (ol : OpenList K V) : Prop where
  correct : ∀ k i, ol.map k = some i → ∃ e, ol.heap[i]? = some e ∧ e.1 = k
  complete : ∀ i e, ol.heap[i]? = some e → ol.map e.1 = some i

/-- Full well-formedness, as maintained by the search drivers (which
always call `insert(state.key(), state)`): map consistency plus the fact
that every stored pair's key is its value's own `key()` (used by `pop`'s
map removal). -/
structure WF (a : AOps K V) (ol : OpenList K V) extends WFm ol : Prop where
  kmatch : ∀ e ∈ ol.heap, a.key e.2 = e.1

theorem wfm_empty : WFm (OpenList.empty (K := K) (V := V)) := by
  constructor
  · intro k i h
    exact absurd h (by simp [OpenList.empty])
  · intro i e h
    exact absurd h (by simp [OpenList.empty])

theorem wf_empty (a : AOps K V) : WF a (OpenList.empty (K := K) (V := V)) := by
  refine ⟨wfm_empty, ?_⟩
  intro e he
  exact absurd he (by simp [OpenList.empty])

theorem wfm_inj {ol : OpenList K V} (hwf : WFm ol) :
    ∀ (i j : Nat) (ei ej : K × V),
      ol.heap[i]? = some ei → ol.heap[j]? = some ej →
      ei.1 = ej.1 → i = j := by
  intro i j ei ej hi hj hk
  have h1 := hwf.complete i ei hi
  have h2 := hwf.complete j ej hj
  rw [hk] at h1
  rw [h1] at h2
  injection h2

theorem wf_inj {a : AOps K V} {ol : OpenList K V} (hwf : WF a ol) :
    ∀ (i j : Nat) (ei ej : K × V),
      ol.heap[i]? = some ei → ol.heap[j]? = some ej →
      ei.1 = ej.1 → i = j :=
  wfm_inj hwf.toWFm

theorem wfm_keys_nodup {ol : OpenList K V} (hwf : WFm ol) :
    (ol.heap.map Prod.fst).Nodup := by
  rw [List.nodup_iff_getElem?_ne_getElem?]
  intro i j hij hjlen
  rw [List.length_map] at hjlen
  rw [List.getElem?_map, List.getElem?_map]
  have hilen : i < ol.heap.length := by omega
  rw [List.getElem?_eq_getElem hilen, List.getElem?_eq_getElem hjlen]
  intro hcon
  simp only [Option.map] at hcon
  injection hcon with hcon
  have := wfm_inj hwf i j _ _ (List.getElem?_eq_getElem hilen)
    (List.getElem?_eq_getElem hjlen) hcon
  omega

theorem wf_keys_nodup {a : AOps K V} {ol : OpenList K V} (hwf : WF a ol) :
    (ol.heap.map Prod.fst).Nodup :=
  wfm_keys_nodup hwf.toWFm

theorem lswap_self {α : Type u} (l : List α) (i : Nat) : lswap l i i = l := by
  unfold lswap
  cases hi : l[i]? with
  | none => rfl
  | some b =>
    show (l.set i b).set i b = l
    rcases List.getElem?_eq_some_iff.mp hi with ⟨hlt, hb⟩
    rw [List.set_set]
    subst hb
    exact set_get_self l i hlt

theorem swapOp_wfm (ol : OpenList K V) (i j : Nat)
    (hi : i < ol.heap.length) (hj : j < ol.heap.length) (hwf : WFm ol) :
    WFm (ol.swapOp i j) := by
  by_cases hij : i = j
  · subst hij
    have hheap : (ol.swapOp i i).heap = ol.heap := by
      rw [swapOp_heap]
      exact lswap_self ol.heap i
    obtain ⟨ei, hei⟩ : ∃ e, ol.heap[i]? = some e :=
      ⟨_, List.getElem?_eq_getElem hi⟩
    have hmap : (ol.swapOp i i).map = mset (mset ol.map ei.1 i) ei.1 i := by
      unfold swapOp
      rw [lswap_self ol.heap i, hei]
    constructor
    · intro k x hkx
      rw [hheap]
      rw [hmap] at hkx
      unfold mset at hkx
      by_cases hk : k = ei.1
      · rw [if_pos hk] at hkx
        injection hkx with hkx
        subst hkx
        exact ⟨ei, hei, hk.symm⟩
      · rw [if_neg hk, if_neg hk] at hkx
        exact hwf.correct k x hkx
    · intro x e hxe
      rw [hheap] at hxe
      rw [hmap]
      unfold mset
      have hc := hwf.complete x e hxe
      by_cases hk : e.1 = ei.1
      · rw [if_pos hk]
        have hci := hwf.complete i ei hei
        rw [hk] at hc
        rw [hc] at hci
        injection hci with hci
        rw [hci]
      · rw [if_neg hk, if_neg hk]
        exact hc
  · have heiq := List.getElem?_eq_getElem hi
    have hejq := List.getElem?_eq_getElem hj
    set ei := ol.heap.get ⟨i, hi⟩ with hei_def
    set ej := ol.heap.get ⟨j, hj⟩ with hej_def
    have hkne : ei.1 ≠ ej.1 := by
      intro hk
      exact hij (wfm_inj hwf i j ei ej heiq hejq hk)
    have hchar : ∀ x, (lswap ol.heap i j)[x]? =
        if x = j then some ei else if x = i then some ej else ol.heap[x]? := by
      intro x
      rw [lswap_getElem? ol.heap i j hi hj x, heiq, hejq]
      rfl
    have hmap : (ol.swapOp i j).map = mset (mset ol.map ej.1 i) ei.1 j := by
      unfold swapOp
      have h1 : (lswap ol.heap i j)[i]? = some ej := by
        rw [hchar i, if_neg hij, if_pos rfl]
      have h2 : (lswap ol.heap i j)[j]? = some ei := by
        rw [hchar j, if_pos rfl]
      rw [h1, h2]
    have hheap : (ol.swapOp i j).heap = lswap ol.heap i j := swapOp_heap ol i j
    constructor
    · intro k x hkx
      rw [hheap, hchar x]
      rw [hmap] at hkx
      unfold mset at hkx
      by_cases hk1 : k = ei.1
      · rw [if_pos hk1] at hkx
        injection hkx with hkx
        subst hkx
        rw [if_pos rfl]
        exact ⟨ei, rfl, hk1.symm⟩
      · rw [if_neg hk1] at hkx
        by_cases hk2 : k = ej.1
        · rw [if_pos hk2] at hkx
          injection hkx with hkx
          subst hkx
          rw [if_neg hij, if_pos rfl]
          exact ⟨ej, rfl, hk2.symm⟩
        · rw [if_neg hk2] at hkx
          obtain ⟨e, he, hek⟩ := hwf.correct k x hkx
          have hxj : x ≠ j := by
            intro hc
            subst hc
            rw [hejq] at he
            injection he with he
            subst he
            exact hk2 hek.symm
          have hxi : x ≠ i := by
            intro hc
            subst hc
            rw [heiq] at he
            injection he with he
            subst he
            exact hk1 hek.symm
          rw [if_neg hxj, if_neg hxi]
          exact ⟨e, he, hek⟩
    · intro x e hxe
      rw [hheap, hchar x] at hxe
      rw [hmap]
      unfold mset
      by_cases hxj : x = j
      · rw [if_pos hxj] at hxe
        injection hxe with hxe
        subst hxe
        rw [if_pos rfl, hxj]
      · rw [if_neg hxj] at hxe
        by_cases hxi : x = i
        · rw [if_pos hxi] at hxe
          injection hxe with hxe
          subst hxe
          rw [if_neg (Ne.symm hkne), if_pos rfl, hxi]
        · rw [if_neg hxi] at hxe
          have hc := hwf.complete x e hxe
          have he1 : e.1 ≠ ei.1 := by
            intro hcon
            exact hxi (wfm_inj hwf x i e ei hxe heiq hcon)
          have he2 : e.1 ≠ ej.1 := by
            intro hcon
            exact hxj (wfm_inj hwf x j e ej hxe hejq hcon)
          rw [if_neg he1, if_neg he2]
          exact hc

theorem swapOp_wf (a : AOps K V) (ol : OpenList K V) (i j : Nat)
    (hi : i < ol.heap.length) (hj : j < ol.heap.length) (hwf : WF a ol) :
    WF a (ol.swapOp i j) := by
  refine ⟨swapOp_wfm ol i j hi hj hwf.toWFm, ?_⟩
  intro e he
  exact hwf.kmatch e ((swapOp_perm ol i j).mem_iff.mp he)

end OpenList

namespace OpenList

variable {K : Type u} {V : Type v} [DecidableEq K]

theorem bubbleUp_perm (a : AOps K V) :
    ∀ (idx : Nat) (ol : OpenList K V),
      List.Perm (bubbleUp a ol idx).heap ol.heap := by
  intro idx
  induction idx using Nat.strong_induction_on with
  | _ idx ih =>
    intro ol
    rw [bubbleUp]
    split
    · exact List.Perm.refl _
    · split
      · exact List.Perm.refl _
      · rename_i h0 hlt
        exact (ih _ (by have := Nat.div_le_self (idx - 1) 2; omega) _).trans
          (swapOp_perm ol _ _)

theorem bubbleUp_length (a : AOps K V) (idx : Nat) (ol : OpenList K V) :
    (bubbleUp a ol idx).heap.length = ol.heap.length :=
  (bubbleUp_perm a idx ol).length_eq

theorem bubbleUp_wfm (a : AOps K V) :
    ∀ (idx : Nat) (ol : OpenList K V), idx < ol.heap.length → WFm ol →
      WFm (bubbleUp a ol idx) := by
  intro idx
  induction idx using Nat.strong_induction_on with
  | _ idx ih =>
    intro ol hlt hwf
    rw [bubbleUp]
    split
    · exact hwf
    · split
      · exact hwf
      · rename_i h0 hge
        have hplt : (idx - 1) / 2 < idx := by
          have := Nat.div_le_self (idx - 1) 2
          omega
        apply ih _ hplt
        · rw [swapOp_length]
          omega
        · exact swapOp_wfm ol idx ((idx - 1) / 2) hlt (by omega) hwf

theorem bubbleUp_kmatch (a : AOps K V) (idx : Nat) (ol : OpenList K V)
    (hkm : ∀ e ∈ ol.heap, a.key e.2 = e.1) :
    ∀ e ∈ (bubbleUp a ol idx).heap, a.key e.2 = e.1 := by
  intro e he
  exact hkm e ((bubbleUp_perm a idx ol).mem_iff.mp he)

theorem bubbleUp_wf (a : AOps K V) (idx : Nat) (ol : OpenList K V)
    (hlt : idx < ol.heap.length) (hwf : WF a ol) :
    WF a (bubbleUp a ol idx) :=
  ⟨bubbleUp_wfm a idx ol hlt hwf.toWFm, bubbleUp_kmatch a idx ol hwf.kmatch⟩

theorem bubleDown_perm (a : AOps K V) :
    ∀ (n : Nat) (ol : OpenList K V) (idx : Nat), ol.heap.length - idx ≤ n →
      List.Perm (bubleDown a ol idx).heap ol.heap := by
  intro n
  induction n with
  | zero =>
    intro ol idx hbound
    rw [bubleDown]
    split
    · exact List.Perm.refl _
    · rename_i hne
      obtain ⟨h1, h2, _⟩ := smallest_ne_spec a ol.heap idx hne
      omega
  | succ n ih =>
    intro ol idx hbound
    rw [bubleDown]
    split
    · exact List.Perm.refl _
    · rename_i hne
      obtain ⟨h1, h2, _⟩ := smallest_ne_spec a ol.heap idx hne
      refine (ih _ _ ?_).trans (swapOp_perm ol _ _)
      rw [swapOp_length]
      omega

theorem bubleDown_wfm (a : AOps K V) :
    ∀ (n : Nat) (ol : OpenList K V) (idx : Nat), ol.heap.length - idx ≤ n →
      idx < ol.heap.length → WFm ol → WFm (bubleDown a ol idx) := by
  intro n
  induction n with
  | zero =>
    intro ol idx hbound hlt hwf
    rw [bubleDown]
    split
    · exact hwf
    · rename_i hne
      obtain ⟨h1, h2, _⟩ := smallest_ne_spec a ol.heap idx hne
      omega
  | succ n ih =>
    intro ol idx hbound hlt hwf
    rw [bubleDown]
    split
    · exact hwf
    · rename_i hne
      obtain ⟨h1, h2, _⟩ := smallest_ne_spec a ol.heap idx hne
      apply ih
      · rw [swapOp_length]
        omega
      · rw [swapOp_length]
        omega
      · exact swapOp_wfm ol idx _ hlt h2 hwf

theorem bubleDown_wf (a : AOps K V) (n : Nat) (ol : OpenList K V) (idx : Nat)
    (hbound : ol.heap.length - idx ≤ n) (hlt : idx < ol.heap.length)
    (hwf : WF a ol) : WF a (bubleDown a ol idx) := by
  refine ⟨bubleDown_wfm a n ol idx hbound hlt hwf.toWFm, ?_⟩
  intro e he
  exact hwf.kmatch e ((bubleDown_perm a n ol idx hbound).mem_iff.mp he)

theorem pop_spec (a : AOps K V) (ol : OpenList K V) (e : K × V)
    (hlast : ol.heap[ol.heap.length - 1]? = some e) :
    ol.pop a = (some e.2, ⟨ol.heap.dropLast, mdel ol.map (a.key e.2)⟩) := by
  unfold pop
  rw [List.getLast?_eq_getElem?, hlast]

theorem pop_wf (a : AOps K V) (ol : OpenList K V) (hwf : WF a ol) :
    WF a (ol.pop a).2 := by
  cases hl : ol.heap.getLast? with
  | none =>
    have : ol.pop a = (none, ol) := by
      unfold pop
      rw [hl]
    rw [this]
    exact hwf
  | some e =>
    rw [List.getLast?_eq_getElem?] at hl
    have hlen : 0 < ol.heap.length := by
      by_contra hc
      rw [List.getElem?_eq_none (by omega)] at hl
      exact Option.noConfusion hl
    have hkey : a.key e.2 = e.1 := hwf.kmatch e (List.getElem?_mem hl)
    have hp : ol.pop a =
        (some e.2, ⟨ol.heap.dropLast, mdel ol.map (a.key e.2)⟩) :=
      pop_spec a ol e hl
    rw [hp]
    refine ⟨⟨?_, ?_⟩, ?_⟩
    · intro k x hkx
      dsimp only at hkx ⊢
      unfold mdel at hkx
      by_cases hk : k = a.key e.2
      · rw [if_pos hk] at hkx
        exact absurd hkx (by simp)
      · rw [if_neg hk] at hkx
        obtain ⟨e', he', hek⟩ := hwf.correct k x hkx
        have hx : x ≠ ol.heap.length - 1 := by
          intro hc
          subst hc
          rw [hl] at he'
          injection he' with he'
          subst he'
          rw [hkey] at hk
          exact hk hek.symm
        have hxlt : x < ol.heap.length := by
          rcases List.getElem?_eq_some_iff.mp he' with ⟨hw, _⟩
          exact hw
        refine ⟨e', ?_, hek⟩
        rw [List.getElem?_dropLast, if_pos (by omega)]
        exact he'
    · intro x e' hxe
      dsimp only at hxe ⊢
      rw [List.getElem?_dropLast] at hxe
      split at hxe
      · rename_i hxlt
        have hc := hwf.complete x e' hxe
        have hne : e'.1 ≠ e.1 := by
          intro hcon
          have := wf_inj hwf x (ol.heap.length - 1) e' e hxe hl hcon
          omega
        unfold mdel
        rw [hkey, if_neg (by rw [← hkey] at hne; exact fun hc2 => hne (by rw [hc2, hkey]))]
        exact hc
      · exact absurd hxe (by simp)
    · intro e' he'
      dsimp only at he'
      exact hwf.kmatch e' (List.dropLast_sublist ol.heap |>.mem he')

end OpenList

namespace OpenList

variable {K : Type u} {V : Type v} [DecidableEq K]

theorem extractMin_nil (a : AOps K V) (ol : OpenList K V)
    (h : ol.heap = []) : extractMin a ol = (none, ol) := by
  unfold extractMin
  rw [if_pos (by rw [h]; rfl)]

theorem extractMin_spec (a : AOps K V) (ol : OpenList K V) (e0 : K × V)
    (h0 : ol.heap[0]? = some e0) (hwf : WF a ol) :
    ∃ ol', extractMin a ol = (some e0.2, ol') ∧ WF a ol' ∧
      List.Perm (e0 :: ol'.heap) ol.heap := by
  have hlen : 0 < ol.heap.length := by
    by_contra hc
    rw [List.getElem?_eq_none (by omega)] at h0
    exact Option.noConfusion h0
  have hkey : a.key e0.2 = e0.1 := hwf.kmatch e0 (List.getElem?_mem h0)
  have hswwf : WF a (ol.swapOp 0 (ol.heap.length - 1)) :=
    swapOp_wf a ol 0 (ol.heap.length - 1) hlen (by omega) hwf
  have hswheap : (ol.swapOp 0 (ol.heap.length - 1)).heap =
      lswap ol.heap 0 (ol.heap.length - 1) := swapOp_heap ol _ _
  have hswlen : (ol.swapOp 0 (ol.heap.length - 1)).heap.length =
      ol.heap.length := swapOp_length ol _ _
  have hlast : (ol.swapOp 0 (ol.heap.length - 1)).heap[
      (ol.swapOp 0 (ol.heap.length - 1)).heap.length - 1]? = some e0 := by
    rw [hswlen, hswheap,
      lswap_getElem? ol.heap 0 (ol.heap.length - 1) hlen (by omega),
      if_pos rfl]
    exact h0
  have hpop := pop_spec a (ol.swapOp 0 (ol.heap.length - 1)) e0 hlast
  have hpopwf : WF a ((ol.swapOp 0 (ol.heap.length - 1)).pop a).2 :=
    pop_wf a _ hswwf
  rw [hpop] at hpopwf
  have hdperm : List.Perm
      (e0 :: (ol.swapOp 0 (ol.heap.length - 1)).heap.dropLast) ol.heap := by
    have hswne : (ol.swapOp 0 (ol.heap.length - 1)).heap ≠ [] := by
      intro hc
      rw [hc] at hswlen
      simp at hswlen
      omega
    have hlast2 : (ol.swapOp 0 (ol.heap.length - 1)).heap.getLast hswne = e0 := by
      have := List.getLast?_eq_getLast _ hswne
      rw [List.getLast?_eq_getElem?] at this
      rw [hlast] at this
      injection this with h
      exact h.symm
    have hsplit := List.dropLast_concat_getLast hswne
    rw [hlast2] at hsplit
    have hp1 : List.Perm
        (e0 :: (ol.swapOp 0 (ol.heap.length - 1)).heap.dropLast)
        ((ol.swapOp 0 (ol.heap.length - 1)).heap.dropLast ++ [e0]) :=
      (List.perm_append_singleton e0 _).symm
    rw [hsplit] at hp1
    exact hp1.trans ((swapOp_perm ol 0 (ol.heap.length - 1)))
  unfold extractMin
  rw [if_neg (by omega), hpop]
  dsimp only
  split
  · rename_i hne2
    have hne2' :
        (ol.swapOp 0 (ol.heap.length - 1)).heap.dropLast.length ≠ 0 := hne2
    refine ⟨_, rfl, ?_, ?_⟩
    · apply bubleDown_wf a
        ((ol.swapOp 0 (ol.heap.length - 1)).heap.dropLast.length) _ 0
      · dsimp only
        omega
      · show 0 < (ol.swapOp 0 (ol.heap.length - 1)).heap.dropLast.length
        omega
      · exact hpopwf
    · have hbperm := bubleDown_perm a
        ((ol.swapOp 0 (ol.heap.length - 1)).heap.dropLast.length)
        ⟨(ol.swapOp 0 (ol.heap.length - 1)).heap.dropLast,
          mdel (ol.swapOp 0 (ol.heap.length - 1)).map (a.key e0.2)⟩ 0
        (by dsimp only; omega)
      exact (List.Perm.cons e0 hbperm).trans hdperm
  · exact ⟨_, rfl, hpopwf, hdperm⟩

end OpenList

namespace OpenList

variable {K : Type u} {V : Type v} [DecidableEq K]

theorem WFm.mk2 (heap : List (K × V)) (map : K → Option Nat)
    (hc : ∀ k i, map k = some i → ∃ e, heap[i]? = some e ∧ e.1 = k)
    (hco : ∀ i e, heap[i]? = some e → map e.1 = some i) :
    WFm (⟨heap, map⟩ : OpenList K V) := ⟨hc, hco⟩

theorem insert_ne_none (a : AOps K V) (ol : OpenList K V) (k : K) (v : V)
    (hwf : WFm ol) : ∃ ol', insert a ol k v = some ol' := by
  unfold insert
  split
  · rename_i index hmap
    obtain ⟨e, he, _⟩ := hwf.correct k index hmap
    rw [he]
    dsimp only
    split
    · exact ⟨_, rfl⟩
    · exact ⟨_, rfl⟩
  · exact ⟨_, rfl⟩

theorem insert_wfm (a : AOps K V) (ol : OpenList K V) (k : K) (v : V)
    (hwf : WFm ol) :
    ∀ ol', insert a ol k v = some ol' → WFm ol' := by
  intro ol' hins
  unfold insert at hins
  split at hins
  · rename_i index hmap
    split at hins
    · exact absurd hins (by simp)
    · rename_i entry hget
      have hidx : index < ol.heap.length := by
        rcases List.getElem?_eq_some_iff.mp hget with ⟨hw, _⟩
        exact hw
      have hkentry : entry.1 = k := by
        obtain ⟨e', he', hk'⟩ := hwf.correct k index hmap
        rw [hget] at he'
        injection he' with he'
        rw [← he'] at hk'
        exact hk'
      split at hins
      · rename_i hless
        injection hins with hins
        subst hins
        apply bubbleUp_wfm a index _ (by simpa using hidx)
        apply WFm.mk2
        · intro k' x hkx
          obtain ⟨e, he, hek⟩ := hwf.correct k' x hkx
          by_cases hx : x = index
          · subst hx
            rw [hget] at he
            injection he with he
            refine ⟨(k, v), List.getElem?_set_self hidx, ?_⟩
            exact (hkentry.symm.trans (congrArg Prod.fst he)).trans hek
          · refine ⟨e, ?_, hek⟩
            rw [List.getElem?_set_ne (by omega)]
            exact he
        · intro x e hxe
          by_cases hx : x = index
          · subst hx
            rw [List.getElem?_set_self hidx] at hxe
            injection hxe with hxe
            rw [← hxe]
            exact hmap
          · rw [List.getElem?_set_ne (by omega)] at hxe
            exact hwf.complete x e hxe
      · injection hins with hins
        subst hins
        exact hwf
  · rename_i hmap
    injection hins with hins
    subst hins
    apply bubbleUp_wfm a ol.heap.length _ (by simp)
    apply WFm.mk2
    · intro k' x hkx
      unfold mset at hkx
      by_cases hk' : k' = k
      · rw [if_pos hk'] at hkx
        injection hkx with hkx
        subst hkx
        exact ⟨(k, v), List.getElem?_concat_length ol.heap (k, v), hk'.symm⟩
      · rw [if_neg hk'] at hkx
        obtain ⟨e, he, hek⟩ := hwf.correct k' x hkx
        refine ⟨e, ?_, hek⟩
        rw [List.getElem?_append_left]
        exact he
        rcases List.getElem?_eq_some_iff.mp he with ⟨hw, _⟩
        exact hw
    · intro x e hxe
      unfold mset
      rcases Nat.lt_trichotomy x ol.heap.length with hx | hx | hx
      · rw [List.getElem?_append_left hx] at hxe
        have hc := hwf.complete x e hxe
        rw [if_neg (fun hcon => by rw [hcon, hmap] at hc; exact Option.noConfusion hc)]
        exact hc
      · subst hx
        rw [List.getElem?_concat_length] at hxe
        injection hxe with hxe
        rw [← hxe]
        rw [if_pos rfl]
      · rw [List.getElem?_eq_none (by simp; omega)] at hxe
        exact absurd hxe (by simp)

theorem insert_mem (a : AOps K V) (ol : OpenList K V) (k : K) (v : V)
    (ol' : OpenList K V) (hins : insert a ol k v = some ol') :
    ∀ e ∈ ol'.heap, e ∈ ol.heap ∨ e = (k, v) := by
  intro e he
  unfold insert at hins
  split at hins
  · rename_i index hmap
    split at hins
    · exact absurd hins (by simp)
    · rename_i entry hget
      split at hins
      · injection hins with hins
        subst hins
        have := (bubbleUp_perm a index _).mem_iff.mp he
        exact List.mem_or_eq_of_mem_set this
      · injection hins with hins
        subst hins
        exact Or.inl he
  · injection hins with hins
    subst hins
    have := (bubbleUp_perm a ol.heap.length _).mem_iff.mp he
    rcases List.mem_append.mp this with h1 | h1
    · exact Or.inl h1
    · exact Or.inr (by simpa using h1)

theorem insert_kmatch (a : AOps K V) (ol : OpenList K V) (k : K) (v : V)
    (hk : a.key v = k) (hkm : ∀ e ∈ ol.heap, a.key e.2 = e.1)
    (ol' : OpenList K V) (hins : insert a ol k v = some ol') :
    ∀ e ∈ ol'.heap, a.key e.2 = e.1 := by
  intro e he
  rcases insert_mem a ol k v ol' hins e he with h1 | h1
  · exact hkm e h1
  · rw [h1]
    exact hk

theorem insert_wf (a : AOps K V) (ol : OpenList K V) (k : K) (v : V)
    (hk : a.key v = k) (hwf : WF a ol) (ol' : OpenList K V)
    (hins : insert a ol k v = some ol') : WF a ol' :=
  ⟨insert_wfm a ol k v hwf.toWFm ol' hins,
    insert_kmatch a ol k v hk hwf.kmatch ol' hins⟩

theorem insert_of_map_none (a : AOps K V) (ol : OpenList K V) (k : K) (v : V)
    (hmap : ol.map k = none) :
    ∃ ol', insert a ol k v = some ol' ∧
      List.Perm ol'.heap ((k, v) :: ol.heap) := by
  unfold insert
  rw [hmap]
  refine ⟨_, rfl, ?_⟩
  exact (bubbleUp_perm a ol.heap.length _).trans
    (List.perm_append_singleton (k, v) ol.heap)

theorem insert_of_map_some_lt (a : AOps K V) (ol : OpenList K V) (k : K)
    (v : V) (index : Nat) (entry : K × V) (hmap : ol.map k = some index)
    (hget : ol.heap[index]? = some entry) (hlt : a.f v < a.f entry.2) :
    ∃ ol', insert a ol k v = some ol' ∧
      List.Perm ol'.heap ((k, v) :: ol.heap.eraseIdx index) := by
  have hidx : index < ol.heap.length := by
    rcases List.getElem?_eq_some_iff.mp hget with ⟨hw, _⟩
    exact hw
  unfold insert
  rw [hmap]
  dsimp only
  rw [hget]
  dsimp only
  rw [if_pos hlt]
  refine ⟨_, rfl, ?_⟩
  refine (bubbleUp_perm a index _).trans ?_
  show List.Perm (ol.heap.set index (k, v)) ((k, v) :: ol.heap.eraseIdx index)
  rw [List.set_eq_take_append_cons_drop, if_pos hidx,
    List.eraseIdx_eq_take_drop_succ]
  exact List.perm_middle

theorem insert_of_map_some_ge (a : AOps K V) (ol : OpenList K V) (k : K)
    (v : V) (index : Nat) (entry : K × V) (hmap : ol.map k = some index)
    (hget : ol.heap[index]? = some entry) (hge : ¬a.f v < a.f entry.2) :
    insert a ol k v = some ol := by
  unfold insert
  rw [hmap]
  dsimp only
  rw [hget]
  dsimp only
  rw [if_neg hge]

end OpenList

namespace OpenList

variable {K : Type u} {V : Type v} [DecidableEq K]

/-- Run a sequence of `insert(key, state)` calls; `none` once an insert
panicked (never happens from `OpenList::new`, proved below). -/
def runInserts (a : AOps K V) :
    List (K × V) → Option (OpenList K V) → Option (OpenList K V)
  | _, none => none
  | [], some ol => some ol
  | p :: rest, some ol => runInserts a rest (insert a ol p.1 p.2)

/-- Minimum of a list of `f()` values (`none` when empty). -/
def minFold : List Nat → Option Nat
  | [] => none
  | x :: rest =>
    match minFold rest with
    | none => some x
    | some y => some (min x y)

/-- The numerically smallest `f()` ever inserted for key `k` in the call
history `hist`. -/
def bestF (a : AOps K V) (hist : List (K × V)) (k : K) : Option Nat :=
  minFold ((hist.filter (fun p => decide (p.1 = k))).map (fun p => a.f p.2))

theorem minFold_append (xs : List Nat) (y : Nat) :
    minFold (xs ++ [y]) =
      some (match minFold xs with | none => y | some m => min m y) := by
  induction xs with
  | nil => rfl
  | cons x rest ih =>
    show minFold (x :: (rest ++ [y])) = _
    unfold minFold
    rw [ih]
    cases h : minFold rest with
    | none => simp
    | some m => simp [Nat.min_assoc]

theorem bestF_append_ne (a : AOps K V) (hist : List (K × V)) (k : K) (v : V)
    (k' : K) (hne : k' ≠ k) :
    bestF a (hist ++ [(k, v)]) k' = bestF a hist k' := by
  unfold bestF
  rw [List.filter_append]
  have : List.filter (fun p => decide (p.1 = k')) [(k, v)] = [] := by
    simp [Ne.symm hne]
  rw [this, List.append_nil]

theorem bestF_append_eq (a : AOps K V) (hist : List (K × V)) (k : K)
    (v : V) :
    bestF a (hist ++ [(k, v)]) k =
      some (match bestF a hist k with
        | none => a.f v
        | some m => min m (a.f v)) := by
  unfold bestF
  rw [List.filter_append]
  have : List.filter (fun p => decide (p.1 = k)) [(k, v)] = [(k, v)] := by
    simp
  rw [this, List.map_append]
  exact minFold_append _ _

theorem filter_nil_of_not_mem_keys (hist : List (K × V)) (k : K)
    (h : k ∉ hist.map Prod.fst) :
    hist.filter (fun p => decide (p.1 = k)) = [] := by
  induction hist with
  | nil => rfl
  | cons p rest ih =>
    rw [List.map_cons, List.mem_cons] at h
    push_neg at h
    rw [List.filter_cons]
    rw [if_neg (by simpa using Ne.symm h.1)]
    exact ih h.2

theorem bestF_none_of_not_mem (a : AOps K V) (hist : List (K × V)) (k : K)
    (h : k ∉ hist.map Prod.fst) : bestF a hist k = none := by
  unfold bestF
  rw [filter_nil_of_not_mem_keys hist k h]
  rfl

theorem cons_eraseIdx_perm (l : List (K × V)) (index : Nat) (e : K × V)
    (h : l[index]? = some e) : List.Perm l (e :: l.eraseIdx index) := by
  rcases List.getElem?_eq_some_iff.mp h with ⟨hlt, hget⟩
  conv_lhs => rw [← List.take_append_drop index l]
  rw [List.eraseIdx_eq_take_drop_succ]
  have hdrop : List.drop index l = e :: List.drop (index + 1) l := by
    rw [List.drop_eq_getElem_cons hlt, hget]
  rw [hdrop]
  exact List.perm_middle

/-- Heaps related by permutation to a key-nodup list have at most one
entry per key; used to transport key facts along `Perm`. -/
theorem keys_nodup_of_perm {l l' : List (K × V)}
    (hp : List.Perm l l') (h : (l'.map Prod.fst).Nodup) :
    (l.map Prod.fst).Nodup :=
  ((hp.map Prod.fst).nodup_iff).mpr h

end OpenList

namespace OpenList

variable {K : Type u} {V : Type v} [DecidableEq K]

/-- Invariant tying an open list to the full history of `insert` calls
that produced it: map consistency, keys present iff ever inserted, and
each entry's `f()` is the minimum ever inserted for its key. -/
def InsInv (a : AOps K V) (hist : List (K × V)) (ol : OpenList K V) : Prop :=
  WFm ol ∧
  (∀ k, (∃ e ∈ ol.heap, e.1 = k) ↔ k ∈ hist.map Prod.fst) ∧
  (∀ e ∈ ol.heap, some (a.f e.2) = bestF a hist e.1)

theorem insInv_empty (a : AOps K V) :
    InsInv a [] (OpenList.empty (K := K) (V := V)) := by
  refine ⟨wfm_empty, ?_, ?_⟩
  · intro k
    simp [OpenList.empty]
  · intro e he
    exact absurd he (by simp [OpenList.empty])

theorem InsInv.step (a : AOps K V) (hist : List (K × V)) (ol : OpenList K V)
    (k : K) (v : V) (hinv : InsInv a hist ol) :
    ∃ ol', insert a ol k v = some ol' ∧ InsInv a (hist ++ [(k, v)]) ol' := by
  obtain ⟨hwf, hiff, hbest⟩ := hinv
  cases hmap : ol.map k with
  | none =>
    obtain ⟨ol', hins, hperm⟩ := insert_of_map_none a ol k v hmap
    have hknot : k ∉ hist.map Prod.fst := by
      rw [← hiff k]
      rintro ⟨e, he, hek⟩
      rcases List.mem_iff_getElem?.mp he with ⟨i, hi⟩
      have hc := hwf.complete i e hi
      rw [hek, hmap] at hc
      exact Option.noConfusion hc
    refine ⟨ol', hins, insert_wfm a ol k v hwf ol' hins, ?_, ?_⟩
    · intro k'
      rw [List.map_append]
      constructor
      · rintro ⟨e, he, hek⟩
        rcases List.mem_cons.mp (hperm.mem_iff.mp he) with he1 | he1
        · apply List.mem_append.mpr
          right
          rw [he1] at hek
          simp [← hek]
        · exact List.mem_append.mpr (Or.inl ((hiff k').mp ⟨e, he1, hek⟩))
      · intro hk'
        rcases List.mem_append.mp hk' with h1 | h1
        · obtain ⟨e, he, hek⟩ := (hiff k').mpr h1
          exact ⟨e, hperm.mem_iff.mpr (List.mem_cons_of_mem _ he), hek⟩
        · have h2 : k' = k := by simpa using h1
          exact ⟨(k, v), hperm.mem_iff.mpr (List.mem_cons_self _ _), h2.symm⟩
    · intro e he
      rcases List.mem_cons.mp (hperm.mem_iff.mp he) with he1 | he1
      · rw [he1]
        show some (a.f v) = bestF a (hist ++ [(k, v)]) k
        rw [bestF_append_eq, bestF_none_of_not_mem a hist k hknot]
      · have hek : e.1 ≠ k := by
          intro hc
          rcases List.mem_iff_getElem?.mp he1 with ⟨i, hi⟩
          have hcc := hwf.complete i e hi
          rw [hc, hmap] at hcc
          exact Option.noConfusion hcc
        rw [bestF_append_ne a hist k v e.1 hek]
        exact hbest e he1
  | some index =>
    obtain ⟨entry, hget, hkentry⟩ := hwf.correct k index hmap
    have hkmem : k ∈ hist.map Prod.fst :=
      (hiff k).mp ⟨entry, List.getElem?_mem hget, hkentry⟩
    have hbentry := hbest entry (List.getElem?_mem hget)
    by_cases hlt : a.f v < a.f entry.2
    · obtain ⟨ol', hins, hperm⟩ :=
        insert_of_map_some_lt a ol k v index entry hmap hget hlt
      have hperm0 : List.Perm ol.heap (entry :: ol.heap.eraseIdx index) :=
        cons_eraseIdx_perm ol.heap index entry hget
      have hkNotInErase : k ∉ (ol.heap.eraseIdx index).map Prod.fst := by
        have hnd : ((entry :: ol.heap.eraseIdx index).map Prod.fst).Nodup :=
          keys_nodup_of_perm hperm0.symm (wfm_keys_nodup hwf)
        rw [List.map_cons] at hnd
        have := (List.nodup_cons.mp hnd).1
        rw [hkentry] at this
        exact this
      refine ⟨ol', hins, insert_wfm a ol k v hwf ol' hins, ?_, ?_⟩
      · intro k'
        rw [List.map_append]
        constructor
        · rintro ⟨e, he, hek⟩
          rcases List.mem_cons.mp (hperm.mem_iff.mp he) with he1 | he1
          · apply List.mem_append.mpr
            right
            rw [he1] at hek
            simp [← hek]
          · apply List.mem_append.mpr
            left
            exact (hiff k').mp ⟨e, List.mem_of_mem_eraseIdx he1, hek⟩
        · intro hk'
          rcases List.mem_append.mp hk' with h1 | h1
          · obtain ⟨e, he, hek⟩ := (hiff k').mpr h1
            rcases List.mem_cons.mp (hperm0.mem_iff.mp he) with he1 | he1
            · refine ⟨(k, v), hperm.mem_iff.mpr (List.mem_cons_self _ _), ?_⟩
              rw [he1] at hek
              rw [← hek, hkentry]
            · exact ⟨e, hperm.mem_iff.mpr (List.mem_cons_of_mem _ he1), hek⟩
          · have h2 : k' = k := by simpa using h1
            exact ⟨(k, v), hperm.mem_iff.mpr (List.mem_cons_self _ _), h2.symm⟩
      · intro e he
        rcases List.mem_cons.mp (hperm.mem_iff.mp he) with he1 | he1
        · rw [he1]
          show some (a.f v) = bestF a (hist ++ [(k, v)]) k
          rw [bestF_append_eq]
          rw [hkentry] at hbentry
          rw [← hbentry]
          show some (a.f v) = some (min (a.f entry.2) (a.f v))
          have : min (a.f entry.2) (a.f v) = a.f v := by omega
          rw [this]
        · have hek : e.1 ≠ k := by
            intro hc
            exact hkNotInErase (by rw [← hc]; exact List.mem_map_of_mem _ he1)
          rw [bestF_append_ne a hist k v e.1 hek]
          exact hbest e (List.mem_of_mem_eraseIdx he1)
    · have hins := insert_of_map_some_ge a ol k v index entry hmap hget hlt
      refine ⟨ol, hins, hwf, ?_, ?_⟩
      · intro k'
        rw [hiff k', List.map_append]
        constructor
        · intro h1
          exact List.mem_append.mpr (Or.inl h1)
        · intro h1
          rcases List.mem_append.mp h1 with h2 | h2
          · exact h2
          · have h3 : k' = k := by simpa using h2
            rw [h3]
            exact hkmem
      · intro e he
        by_cases hek : e.1 = k
        · rcases List.mem_iff_getElem?.mp he with ⟨i, hi⟩
          have hieq : i = index :=
            wfm_inj hwf i index e entry hi hget (by rw [hek, hkentry])
          subst hieq
          rw [hi] at hget
          injection hget with hh
          rw [hek, bestF_append_eq]
          rw [hkentry] at hbentry
          rw [← hh] at hbentry
          rw [← hbentry]
          show some (a.f e.2) = some (min (a.f e.2) (a.f v))
          have : min (a.f e.2) (a.f v) = a.f e.2 := by
            rw [← hh] at hlt
            omega
          rw [this]
        · rw [bestF_append_ne a hist k v e.1 hek]
          exact hbest e he

theorem runInserts_inv (a : AOps K V) :
    ∀ (l : List (K × V)) (hist : List (K × V)) (ol : OpenList K V),
      InsInv a hist ol →
      ∃ ol', runInserts a l (some ol) = some ol' ∧
        InsInv a (hist ++ l) ol' := by
  intro l
  induction l with
  | nil =>
    intro hist ol h
    exact ⟨ol, rfl, by simpa using h⟩
  | cons p rest ih =>
    intro hist ol h
    obtain ⟨ol1, hins, hinv1⟩ := InsInv.step a hist ol p.1 p.2 h
    obtain ⟨ol', hrun, hinv'⟩ := ih (hist ++ [(p.1, p.2)]) ol1 hinv1
    refine ⟨ol', ?_, ?_⟩
    · unfold runInserts
      rw [hins]
      exact hrun
    · have heq : hist ++ [(p.1, p.2)] ++ rest = hist ++ p :: rest := by
        rw [List.append_assoc]
        rfl
      rw [← heq]
      exact hinv'

end OpenList

/-- `uloop` instrumented with a ghost trace: additionally returns the
list of states extracted from the open list (in order) and the final
open list.  Its first component is exactly `uloop`. -/
def uloopTr {K : Type u} {S : Type v} [DecidableEq K] (u : UOps K S) :
    Nat → OpenList K S → List K →
      SearchRes (Nat × S) × List S × OpenList K S
  | 0, ol, _ => (.fuelOut, [], ol)
  | fuel + 1, ol, closed =>
    match OpenList.extractMin u.toAOps ol with
    | (none, ol') => (.noGoal, [], ol')
    | (some current, ol') =>
      if u.isGoal current then
        (.found (closed.length, current), [current], ol')
      else
        let closed' := hsInsert closed (u.key current)
        match insertSuccessors u closed' (u.succs current) ol' with
        | none => (.panic, [current], ol')
        | some ol'' =>
          let r := uloopTr u fuel ol'' closed'
          (r.1, current :: r.2.1, r.2.2)

theorem uloopTr_fst {K : Type u} {S : Type v} [DecidableEq K] (u : UOps K S) :
    ∀ (fuel : Nat) (ol : OpenList K S) (closed : List K),
      (uloopTr u fuel ol closed).1 = uloop u fuel ol closed := by
  intro fuel
  induction fuel with
  | zero => intro ol closed; rfl
  | succ fuel ih =>
    intro ol closed
    unfold uloopTr uloop
    rcases hext : OpenList.extractMin u.toAOps ol with ⟨mv, ol'⟩
    cases mv with
    | none => rfl
    | some current =>
      dsimp only
      split
      · rfl
      · rcases hins : insertSuccessors u (hsInsert closed (u.key current))
          (u.succs current) ol' with _ | ol''
        · rfl
        · exact ih ol'' _

/-- `untracedAstar` with the ghost trace. -/
def untracedAstarTr {K : Type u} {S : Type v} [DecidableEq K] (u : UOps K S)
    (fuel : Nat) (start : S) :
    SearchRes (Nat × S) × List S × OpenList K S :=
  match OpenList.insert u.toAOps OpenList.empty (u.key start) start with
  | none => (SearchRes.panic, [], OpenList.empty)
  | some ol => uloopTr u fuel ol []

theorem untracedAstar_eq {K : Type u} {S : Type v} [DecidableEq K]
    (u : UOps K S) (fuel : Nat) (start : S) :
    untracedAstar u fuel start = (untracedAstarTr u fuel start).1 := by
  unfold untracedAstar untracedAstarTr
  cases h : OpenList.insert u.toAOps OpenList.empty (u.key start) start with
  | none => rfl
  | some ol => exact (uloopTr_fst u fuel ol []).symm

namespace OpenList

variable {K : Type u} {V : Type v} [DecidableEq K]

theorem extract_cases (a : AOps K V) (ol : OpenList K V) (hwf : WF a ol) :
    (ol.heap = [] ∧ extractMin a ol = (none, ol)) ∨
    (∃ e0 ol', ol.heap[0]? = some e0 ∧ e0 ∈ ol.heap ∧
      a.key e0.2 = e0.1 ∧ extractMin a ol = (some e0.2, ol') ∧ WF a ol' ∧
      List.Perm (e0 :: ol'.heap) ol.heap ∧
      e0.1 ∉ ol'.heap.map Prod.fst) := by
  cases h0 : ol.heap[0]? with
  | none =>
    left
    have hnil : ol.heap = [] := by
      cases hh : ol.heap with
      | nil => rfl
      | cons e rest =>
        rw [hh] at h0
        exact absurd h0 (by simp)
    exact ⟨hnil, extractMin_nil a ol hnil⟩
  | some e =>
    right
    obtain ⟨ol', hext, hwf', hperm⟩ := extractMin_spec a ol e h0 hwf
    have hmem : e ∈ ol.heap := List.getElem?_mem h0
    refine ⟨e, ol', rfl, hmem, hwf.kmatch e hmem, hext, hwf', hperm, ?_⟩
    have hnd : ((e :: ol'.heap).map Prod.fst).Nodup :=
      keys_nodup_of_perm hperm (wf_keys_nodup hwf)
    rw [List.map_cons] at hnd
    exact (List.nodup_cons.mp hnd).1

end OpenList

/-- The untraced-driver invariant: open-list well-formedness, open keys
disjoint from the closed set, and a duplicate-free closed set. -/
structure UInv {K : Type u} {S : Type v} [DecidableEq K] (u : UOps K S)
    (ol : OpenList K S) (closed : List K) : Prop where
  wf : OpenList.WF u.toAOps ol
  disj : ∀ e ∈ ol.heap, e.1 ∉ closed
  nodupc : closed.Nodup

theorem insertSuccessors_spec {K : Type u} {S : Type v} [DecidableEq K]
    (u : UOps K S) (closed : List K) :
    ∀ (ss : List S) (ol : OpenList K S), OpenList.WF u.toAOps ol →
    ∃ ol'', insertSuccessors u closed ss ol = some ol'' ∧
      OpenList.WF u.toAOps ol'' ∧
      ∀ e ∈ ol''.heap, e ∈ ol.heap ∨
        ∃ s, s ∈ ss ∧ e = (u.key s, s) ∧ u.key s ∉ closed := by
  intro ss
  induction ss with
  | nil =>
    intro ol hwf
    exact ⟨ol, rfl, hwf, fun e he => Or.inl he⟩
  | cons s rest ih =>
    intro ol hwf
    unfold insertSuccessors
    by_cases hmem : u.key s ∈ closed
    · rw [if_pos hmem]
      obtain ⟨ol'', hrun, hwf'', hent⟩ := ih ol hwf
      refine ⟨ol'', hrun, hwf'', ?_⟩
      intro e he
      rcases hent e he with h1 | ⟨s', hs', he', hk'⟩
      · exact Or.inl h1
      · exact Or.inr ⟨s', List.mem_cons_of_mem _ hs', he', hk'⟩
    · rw [if_neg hmem]
      obtain ⟨ol1, hins⟩ := OpenList.insert_ne_none u.toAOps ol (u.key s) s
        hwf.toWFm
      rw [hins]
      have hwf1 : OpenList.WF u.toAOps ol1 :=
        OpenList.insert_wf u.toAOps ol (u.key s) s rfl hwf ol1 hins
      obtain ⟨ol'', hrun, hwf'', hent⟩ := ih ol1 hwf1
      refine ⟨ol'', hrun, hwf'', ?_⟩
      intro e he
      rcases hent e he with h1 | ⟨s', hs', he', hk'⟩
      · rcases OpenList.insert_mem u.toAOps ol (u.key s) s ol1 hins e h1
          with h2 | h2
        · exact Or.inl h2
        · exact Or.inr ⟨s, List.mem_cons_self _ _, h2, hmem⟩
      · exact Or.inr ⟨s', List.mem_cons_of_mem _ hs', he', hk'⟩

theorem hsInsert_of_not_mem {K : Type u} [DecidableEq K] (l : List K) (k : K)
    (h : k ∉ l) : hsInsert l k = l ++ [k] := by
  unfold hsInsert
  rw [if_neg h]

theorem mem_hsInsert {K : Type u} [DecidableEq K] (x : K) (l : List K)
    (k : K) : x ∈ hsInsert l k ↔ x ∈ l ∨ x = k := by
  unfold hsInsert
  split
  · rename_i hk
    constructor
    · exact Or.inl
    · rintro (h1 | h1)
      · exact h1
      · rw [h1]
        exact hk
  · simp

theorem hsInsert_nodup {K : Type u} [DecidableEq K] (l : List K) (k : K)
    (h : l.Nodup) : (hsInsert l k).Nodup := by
  unfold hsInsert
  split
  · exact h
  · rename_i hk
    rw [List.nodup_append]
    refine ⟨h, List.nodup_singleton k, ?_⟩
    intro x hx hxk
    have hxek : x = k := by simpa using hxk
    rw [hxek] at hx
    exact hk hx

theorem uloopTr_step {K : Type u} {S : Type v} [DecidableEq K] (u : UOps K S)
    (fuel : Nat) (ol : OpenList K S) (closed : List K)
    (hwf : OpenList.WF u.toAOps ol) :
    (ol.heap = [] ∧ uloopTr u (fuel + 1) ol closed = (.noGoal, [], ol)) ∨
    (∃ e0 ol', ol.heap[0]? = some e0 ∧ u.key e0.2 = e0.1 ∧ e0 ∈ ol.heap ∧
      OpenList.WF u.toAOps ol' ∧ List.Perm (e0 :: ol'.heap) ol.heap ∧
      e0.1 ∉ ol'.heap.map Prod.fst ∧
      ((u.isGoal e0.2 = true ∧
        uloopTr u (fuel + 1) ol closed =
          (.found (closed.length, e0.2), [e0.2], ol')) ∨
       (u.isGoal e0.2 = false ∧
        ∃ ol'', insertSuccessors u (hsInsert closed (u.key e0.2))
            (u.succs e0.2) ol' = some ol'' ∧
          OpenList.WF u.toAOps ol'' ∧
          (∀ e ∈ ol''.heap, e ∈ ol'.heap ∨
            ∃ s, s ∈ u.succs e0.2 ∧ e = (u.key s, s) ∧
              u.key s ∉ hsInsert closed (u.key e0.2)) ∧
          uloopTr u (fuel + 1) ol closed =
            ((uloopTr u fuel ol'' (hsInsert closed (u.key e0.2))).1,
             e0.2 :: (uloopTr u fuel ol'' (hsInsert closed (u.key e0.2))).2.1,
             (uloopTr u fuel ol'' (hsInsert closed (u.key e0.2))).2.2)))) := by
  rcases OpenList.extract_cases u.toAOps ol hwf with
    ⟨hnil, hext⟩ | ⟨e0, ol', h0, hmem, hkey, hext, hwf', hperm, hnotin⟩
  all_goals have hunf : uloopTr u (fuel + 1) ol closed =
      (match OpenList.extractMin u.toAOps ol with
       | (none, ol') => (SearchRes.noGoal, [], ol')
       | (some current, ol') =>
         if u.isGoal current then
           (SearchRes.found (closed.length, current), [current], ol')
         else
           match insertSuccessors u (hsInsert closed (u.key current))
               (u.succs current) ol' with
           | none => (SearchRes.panic, [current], ol')
           | some ol'' =>
             ((uloopTr u fuel ol'' (hsInsert closed (u.key current))).1,
              current ::
                (uloopTr u fuel ol'' (hsInsert closed (u.key current))).2.1,
              (uloopTr u fuel ol'' (hsInsert closed (u.key current))).2.2)) :=
    rfl
  · left
    refine ⟨hnil, ?_⟩
    rw [hunf, hext]
  · right
    obtain ⟨ol'', hins, hwf'', hent⟩ := insertSuccessors_spec u
      (hsInsert closed (u.key e0.2)) (u.succs e0.2) ol' hwf'
    refine ⟨e0, ol', h0, hkey, hmem, hwf', hperm, hnotin, ?_⟩
    by_cases hgoal : u.isGoal e0.2
    · left
      refine ⟨hgoal, ?_⟩
      rw [hunf, hext]
      dsimp only
      rw [if_pos hgoal]
    · right
      refine ⟨by simpa using hgoal, ol'', hins, hwf'', hent, ?_⟩
      rw [hunf, hext]
      dsimp only
      rw [if_neg hgoal, hins]

theorem uloop_no_panic {K : Type u} {S : Type v} [DecidableEq K]
    (u : UOps K S) :
    ∀ (fuel : Nat) (ol : OpenList K S) (closed : List K),
      OpenList.WF u.toAOps ol →
      (uloopTr u fuel ol closed).1 ≠ SearchRes.panic := by
  intro fuel
  induction fuel with
  | zero =>
    intro ol closed hwf
    exact fun h => SearchRes.noConfusion h
  | succ fuel ih =>
    intro ol closed hwf
    rcases uloopTr_step u fuel ol closed hwf with
      ⟨hnil, heq⟩ | ⟨e0, ol', h0, hkey, hmem, hwf', hperm, hnotin,
        ⟨hgoal, heq⟩ | ⟨hgoal, ol'', hins, hwf'', hent, heq⟩⟩
    · rw [heq]
      exact fun h => SearchRes.noConfusion h
    · rw [heq]
      exact fun h => SearchRes.noConfusion h
    · rw [heq]
      exact ih ol'' (hsInsert closed (u.key e0.2)) hwf''

/-- The non-goal step of the untraced loop preserves the driver
invariant. -/
theorem UInv.preserve {K : Type u} {S : Type v} [DecidableEq K]
    {u : UOps K S} {ol ol' ol'' : OpenList K S} {closed : List K}
    {e0 : K × S} (hinv : UInv u ol closed)
    (hkey : u.key e0.2 = e0.1) (hmem : e0 ∈ ol.heap)
    (hwf' : OpenList.WF u.toAOps ol')
    (hperm : List.Perm (e0 :: ol'.heap) ol.heap)
    (hnotin : e0.1 ∉ ol'.heap.map Prod.fst)
    (hwf'' : OpenList.WF u.toAOps ol'')
    (hent : ∀ e ∈ ol''.heap, e ∈ ol'.heap ∨
      ∃ s, s ∈ u.succs e0.2 ∧ e = (u.key s, s) ∧
        u.key s ∉ hsInsert closed (u.key e0.2)) :
    UInv u ol'' (hsInsert closed (u.key e0.2)) := by
  have hd0 : e0.1 ∉ closed := hinv.disj e0 hmem
  refine ⟨hwf'', ?_, ?_⟩
  · intro e he
    rcases hent e he with h1 | ⟨s, hs, hes, hks⟩
    · have hmem0 : e ∈ ol.heap := hperm.mem_iff.mp (List.mem_cons_of_mem _ h1)
      rw [mem_hsInsert]
      rintro (h2 | h2)
      · exact hinv.disj e hmem0 h2
      · rw [hkey] at h2
        exact hnotin (h2 ▸ List.mem_map_of_mem Prod.fst h1)
    · rw [hes]
      exact hks
  · rw [hkey]
    exact hsInsert_nodup closed e0.1 hinv.nodupc

/-- The extraction trace of the untraced loop never repeats a key, and
never extracts a key already closed (claim C4's content). -/
theorem uloop_trace_spec {K : Type u} {S : Type v} [DecidableEq K]
    (u : UOps K S) :
    ∀ (fuel : Nat) (ol : OpenList K S) (closed : List K),
      UInv u ol closed →
      ((uloopTr u fuel ol closed).2.1.map u.key).Nodup ∧
      (∀ s ∈ (uloopTr u fuel ol closed).2.1, u.key s ∉ closed) := by
  intro fuel
  induction fuel with
  | zero =>
    intro ol closed hinv
    constructor
    · exact List.Pairwise.nil
    · intro s hs
      exact absurd hs (by simp [uloopTr])
  | succ fuel ih =>
    intro ol closed hinv
    rcases uloopTr_step u fuel ol closed hinv.wf with
      ⟨hnil, heq⟩ | ⟨e0, ol', h0, hkey, hmem, hwf', hperm, hnotin,
        ⟨hgoal, heq⟩ | ⟨hgoal, ol'', hins, hwf'', hent, heq⟩⟩
    · rw [heq]
      constructor
      · exact List.Pairwise.nil
      · intro s hs
        exact absurd hs (by simp)
    · rw [heq]
      constructor
      · simp
      · intro s hs
        have hse : s = e0.2 := by simpa using hs
        rw [hse, hkey]
        exact hinv.disj e0 hmem
    · rw [heq]
      have hinv' : UInv u ol'' (hsInsert closed (u.key e0.2)) :=
        hinv.preserve hkey hmem hwf' hperm hnotin hwf'' hent
      obtain ⟨ihnd, ihcl⟩ := ih ol'' (hsInsert closed (u.key e0.2)) hinv'
      constructor
      · dsimp only
        rw [List.map_cons, List.nodup_cons]
        refine ⟨?_, ihnd⟩
        intro hc
        rcases List.mem_map.mp hc with ⟨s, hs, hks⟩
        have := ihcl s hs
        rw [hks] at this
        exact this ((mem_hsInsert _ _ _).mpr (Or.inr rfl))
      · intro s hs
        rcases List.mem_cons.mp hs with h1 | h1
        · rw [h1, hkey]
          exact hinv.disj e0 hmem
        · intro hc
          exact ihcl s h1 ((mem_hsInsert _ _ _).mpr (Or.inl hc))

/-- The untraced loop reports `noGoal` exactly when it exhausted the
open list without ever extracting a goal state (claim C6's content). -/
theorem uloop_noGoal_iff {K : Type u} {S : Type v} [DecidableEq K]
    (u : UOps K S) :
    ∀ (fuel : Nat) (ol : OpenList K S) (closed : List K),
      OpenList.WF u.toAOps ol →
      (uloopTr u fuel ol closed).1 ≠ SearchRes.fuelOut →
      ((uloopTr u fuel ol closed).1 = SearchRes.noGoal ↔
        ((uloopTr u fuel ol closed).2.2.heap = [] ∧
          ∀ s ∈ (uloopTr u fuel ol closed).2.1, u.isGoal s = false)) := by
  intro fuel
  induction fuel with
  | zero =>
    intro ol closed hwf hfo
    exact absurd rfl hfo
  | succ fuel ih =>
    intro ol closed hwf hfo
    rcases uloopTr_step u fuel ol closed hwf with
      ⟨hnil, heq⟩ | ⟨e0, ol', h0, hkey, hmem, hwf', hperm, hnotin,
        ⟨hgoal, heq⟩ | ⟨hgoal, ol'', hins, hwf'', hent, heq⟩⟩
    · rw [heq]
      constructor
      · intro _
        exact ⟨hnil, by intro s hs; exact absurd hs (by simp)⟩
      · intro _
        rfl
    · rw [heq]
      constructor
      · intro hc
        exact absurd hc (by simp)
      · rintro ⟨hfin, hall⟩
        have := hall e0.2 (by simp)
        rw [hgoal] at this
        exact absurd this (by simp)
    · rw [heq] at hfo ⊢
      have ihr := ih ol'' (hsInsert closed (u.key e0.2)) hwf'' hfo
      dsimp only at ihr ⊢
      rw [ihr]
      constructor
      · rintro ⟨hfin, hall⟩
        refine ⟨hfin, ?_⟩
        intro s hs
        rcases List.mem_cons.mp hs with h1 | h1
        · rw [h1]
          exact hgoal
        · exact hall s h1
      · rintro ⟨hfin, hall⟩
        refine ⟨hfin, ?_⟩
        intro s hs
        exact hall s (List.mem_cons_of_mem _ hs)

/-- Termination bound for the untraced loop: with all keys drawn from a
finite set `KS`, fuel exceeding the number of not-yet-closed keys cannot
run out (claim C7's content). -/
theorem uloop_termination {K : Type u} {S : Type v} [DecidableEq K]
    (u : UOps K S) (KS : Finset K)
    (hsucc : ∀ s s', s' ∈ u.succs s → u.key s' ∈ KS) :
    ∀ (fuel : Nat) (ol : OpenList K S) (closed : List K),
      UInv u ol closed →
      (∀ e ∈ ol.heap, e.1 ∈ KS) → (∀ k ∈ closed, k ∈ KS) →
      KS.card - closed.length < fuel →
      (uloopTr u fuel ol closed).1 ≠ SearchRes.fuelOut := by
  intro fuel
  induction fuel with
  | zero =>
    intro ol closed hinv hok hck hbound
    omega
  | succ fuel ih =>
    intro ol closed hinv hok hck hbound
    rcases uloopTr_step u fuel ol closed hinv.wf with
      ⟨hnil, heq⟩ | ⟨e0, ol', h0, hkey, hmem, hwf', hperm, hnotin,
        ⟨hgoal, heq⟩ | ⟨hgoal, ol'', hins, hwf'', hent, heq⟩⟩
    · rw [heq]
      exact fun h => SearchRes.noConfusion h
    · rw [heq]
      exact fun h => SearchRes.noConfusion h
    · rw [heq]
      have hinv' : UInv u ol'' (hsInsert closed (u.key e0.2)) :=
        hinv.preserve hkey hmem hwf' hperm hnotin hwf'' hent
      apply ih ol'' (hsInsert closed (u.key e0.2)) hinv'
      · intro e he
        rcases hent e he with h1 | ⟨s, hs, hes, hks⟩
        · exact hok e (hperm.mem_iff.mp (List.mem_cons_of_mem _ h1))
        · rw [hes]
          exact hsucc e0.2 s hs
      · intro k hk
        rcases (mem_hsInsert k closed (u.key e0.2)).mp hk with h1 | h1
        · exact hck k h1
        · rw [h1, hkey]
          exact hok e0 hmem
      · have hd0 : e0.1 ∉ closed := hinv.disj e0 hmem
        have hlen : (hsInsert closed (u.key e0.2)).length =
            closed.length + 1 := by
          rw [hkey, hsInsert_of_not_mem closed e0.1 hd0]
          simp
        have hsub : (hsInsert closed (u.key e0.2)).length ≤ KS.card := by
          have hnd : (hsInsert closed (u.key e0.2)).Nodup := by
            rw [hkey]
            exact hsInsert_nodup closed e0.1 hinv.nodupc
          have hsubKS : ∀ k ∈ hsInsert closed (u.key e0.2), k ∈ KS := by
            intro k hk
            rcases (mem_hsInsert k closed (u.key e0.2)).mp hk with h1 | h1
            · exact hck k h1
            · rw [h1, hkey]
              exact hok e0 hmem
          calc (hsInsert closed (u.key e0.2)).length
              = (hsInsert closed (u.key e0.2)).toFinset.card :=
                (List.toFinset_card_of_nodup hnd).symm
            _ ≤ KS.card := by
                apply Finset.card_le_card
                intro x hx
                exact hsubKS x (List.mem_toFinset.mp hx)
        omega

/-- `tloop` instrumented with a ghost trace of extracted wrappers and the
final open list; its first component is exactly `tloop`. -/
def tloopTr {K : Type u} {S : Type v} {C : Type w} [DecidableEq K]
    (t : TOps K S C) :
    Nat → OpenList K (TWrap K S C) → List (K × TWrap K S C) →
      SearchRes (List C × Nat × S) × List (TWrap K S C) ×
        OpenList K (TWrap K S C)
  | 0, ol, _ => (.fuelOut, [], ol)
  | fuel + 1, ol, closed =>
    match OpenList.extractMin t.wrapOps ol with
    | (none, ol') => (.noGoal, [], ol')
    | (some w, ol') =>
      if t.isGoal w.state then
        (.found (reconstruct closed w, closed.length, w.state), [w], ol')
      else
        let succ := genStates t w
        let closed' := amInsert closed (t.key w.state) w
        match insertSuccessorsT t closed' succ ol' with
        | none => (.panic, [w], ol')
        | some ol'' =>
          let r := tloopTr t fuel ol'' closed'
          (r.1, w :: r.2.1, r.2.2)

theorem tloopTr_fst {K : Type u} {S : Type v} {C : Type w} [DecidableEq K]
    (t : TOps K S C) :
    ∀ (fuel : Nat) (ol : OpenList K (TWrap K S C))
      (closed : List (K × TWrap K S C)),
      (tloopTr t fuel ol closed).1 = tloop t fuel ol closed := by
  intro fuel
  induction fuel with
  | zero => intro ol closed; rfl
  | succ fuel ih =>
    intro ol closed
    unfold tloopTr tloop
    rcases hext : OpenList.extractMin t.wrapOps ol with ⟨mv, ol'⟩
    cases mv with
    | none => rfl
    | some w =>
      dsimp only
      split
      · rfl
      · rcases hins : insertSuccessorsT t (amInsert closed (t.key w.state) w)
          (genStates t w) ol' with _ | ol''
        · rfl
        · exact ih ol'' _

/-- `tracedAstar` with the ghost trace. -/
def tracedAstarTr {K : Type u} {S : Type v} {C : Type w} [DecidableEq K]
    (t : TOps K S C) (fuel : Nat) (start : S) :
    SearchRes (List C × Nat × S) × List (TWrap K S C) ×
      OpenList K (TWrap K S C) :=
  match OpenList.insert t.wrapOps OpenList.empty (t.key start)
      ⟨start, none, none⟩ with
  | none => (SearchRes.panic, [], OpenList.empty)
  | some ol => tloopTr t fuel ol []

theorem tracedAstar_eq {K : Type u} {S : Type v} {C : Type w} [DecidableEq K]
    (t : TOps K S C) (fuel : Nat) (start : S) :
    tracedAstar t fuel start = (tracedAstarTr t fuel start).1 := by
  unfold tracedAstar tracedAstarTr
  cases h : OpenList.insert t.wrapOps OpenList.empty (t.key start)
      ⟨start, none, none⟩ with
  | none => rfl
  | some ol => exact (tloopTr_fst t fuel ol []).symm

theorem amLookup_isSome_iff {K : Type u} {W : Type v} [DecidableEq K]
    (l : List (K × W)) (k : K) :
    (amLookup l k).isSome = true ↔ k ∈ l.map Prod.fst := by
  induction l with
  | nil => simp [amLookup]
  | cons e rest ih =>
    unfold amLookup
    by_cases he : e.1 = k
    · rw [if_pos he]
      simp [he]
    · rw [if_neg he]
      rw [ih]
      simp [Ne.symm he]

theorem amInsert_of_not_mem {K : Type u} {W : Type v} [DecidableEq K]
    (l : List (K × W)) (k : K) (w : W) (h : k ∉ l.map Prod.fst) :
    amInsert l k w = l ++ [(k, w)] := by
  induction l with
  | nil => rfl
  | cons e rest ih =>
    rw [List.map_cons, List.mem_cons] at h
    push_neg at h
    unfold amInsert
    rw [if_neg (Ne.symm h.1)]
    rw [ih h.2]
    rfl

theorem amInsert_keys {K : Type u} {W : Type v} [DecidableEq K]
    (l : List (K × W)) (k : K) (w : W) :
    (amInsert l k w).map Prod.fst = hsInsert (l.map Prod.fst) k := by
  induction l with
  | nil => rfl
  | cons e rest ih =>
    unfold amInsert hsInsert
    by_cases he : e.1 = k
    · rw [if_pos he]
      rw [if_pos (by rw [List.map_cons, he]; exact List.mem_cons_self _ _)]
      rw [List.map_cons, List.map_cons, he]
    · rw [if_neg he]
      rw [List.map_cons, List.map_cons]
      by_cases hk : k ∈ e.1 :: rest.map Prod.fst
      · have hk' : k ∈ rest.map Prod.fst := by
          rcases List.mem_cons.mp hk with h1 | h1
          · exact absurd h1.symm he
          · exact h1
        rw [if_pos hk]
        have := ih
        unfold hsInsert at this
        rw [if_pos hk'] at this
        rw [this]
      · have hk' : k ∉ rest.map Prod.fst := by
          intro hc
          exact hk (List.mem_cons_of_mem _ hc)
        rw [if_neg hk]
        have := ih
        unfold hsInsert at this
        rw [if_neg hk'] at this
        rw [this]
        rfl

theorem amRemove_not_mem {K : Type u} {W : Type v} [DecidableEq K]
    (l : List (K × W)) (k : K) (h : k ∉ l.map Prod.fst) :
    amRemove l k = (none, l) := by
  induction l with
  | nil => rfl
  | cons e rest ih =>
    rw [List.map_cons, List.mem_cons] at h
    push_neg at h
    unfold amRemove
    rw [if_neg (Ne.symm h.1), ih h.2]

theorem amRemove_append {K : Type u} {W : Type v} [DecidableEq K]
    (l1 l2 : List (K × W)) (k : K) (w : W) (h : k ∉ l1.map Prod.fst) :
    amRemove (l1 ++ (k, w) :: l2) k = (some w, l1 ++ l2) := by
  induction l1 with
  | nil =>
    show amRemove ((k, w) :: l2) k = (some w, l2)
    unfold amRemove
    rw [if_pos rfl]
  | cons e rest ih =>
    rw [List.map_cons, List.mem_cons] at h
    push_neg at h
    show amRemove (e :: (rest ++ (k, w) :: l2)) k = (some w, e :: (rest ++ l2))
    unfold amRemove
    rw [if_neg (Ne.symm h.1), ih h.2]

theorem insertSuccessorsT_spec {K : Type u} {S : Type v} {C : Type w}
    [DecidableEq K] (t : TOps K S C) (closed : List (K × TWrap K S C)) :
    ∀ (ss : List (TWrap K S C)) (ol : OpenList K (TWrap K S C)),
      OpenList.WF t.wrapOps ol →
    ∃ ol'', insertSuccessorsT t closed ss ol = some ol'' ∧
      OpenList.WF t.wrapOps ol'' ∧
      ∀ e ∈ ol''.heap, e ∈ ol.heap ∨
        ∃ x, x ∈ ss ∧ e = (t.key x.state, x) ∧
          t.key x.state ∉ closed.map Prod.fst := by
  intro ss
  induction ss with
  | nil =>
    intro ol hwf
    exact ⟨ol, rfl, hwf, fun e he => Or.inl he⟩
  | cons x rest ih =>
    intro ol hwf
    unfold insertSuccessorsT
    by_cases hmem : (amLookup closed (t.key x.state)).isSome = true
    · rw [if_pos hmem]
      obtain ⟨ol'', hrun, hwf'', hent⟩ := ih ol hwf
      refine ⟨ol'', hrun, hwf'', ?_⟩
      intro e he
      rcases hent e he with h1 | ⟨x', hx', he', hk'⟩
      · exact Or.inl h1
      · exact Or.inr ⟨x', List.mem_cons_of_mem _ hx', he', hk'⟩
    · rw [if_neg hmem]
      obtain ⟨ol1, hins⟩ := OpenList.insert_ne_none t.wrapOps ol
        (t.key x.state) x hwf.toWFm
      rw [hins]
      have hwf1 : OpenList.WF t.wrapOps ol1 :=
        OpenList.insert_wf t.wrapOps ol (t.key x.state) x rfl hwf ol1 hins
      obtain ⟨ol'', hrun, hwf'', hent⟩ := ih ol1 hwf1
      refine ⟨ol'', hrun, hwf'', ?_⟩
      intro e he
      rcases hent e he with h1 | ⟨x', hx', he', hk'⟩
      · rcases OpenList.insert_mem t.wrapOps ol (t.key x.state) x ol1 hins
          e h1 with h2 | h2
        · exact Or.inl h2
        · refine Or.inr ⟨x, List.mem_cons_self _ _, h2, ?_⟩
          rw [← amLookup_isSome_iff]
          simpa using hmem
      · exact Or.inr ⟨x', List.mem_cons_of_mem _ hx', he', hk'⟩

theorem tloopTr_step {K : Type u} {S : Type v} {C : Type w} [DecidableEq K]
    (t : TOps K S C) (fuel : Nat) (ol : OpenList K (TWrap K S C))
    (closed : List (K × TWrap K S C)) (hwf : OpenList.WF t.wrapOps ol) :
    (ol.heap = [] ∧ tloopTr t (fuel + 1) ol closed = (.noGoal, [], ol)) ∨
    (∃ e0 ol', ol.heap[0]? = some e0 ∧ t.key e0.2.state = e0.1 ∧
      e0 ∈ ol.heap ∧
      OpenList.WF t.wrapOps ol' ∧ List.Perm (e0 :: ol'.heap) ol.heap ∧
      e0.1 ∉ ol'.heap.map Prod.fst ∧
      ((t.isGoal e0.2.state = true ∧
        tloopTr t (fuel + 1) ol closed =
          (.found (reconstruct closed e0.2, closed.length, e0.2.state),
            [e0.2], ol')) ∨
       (t.isGoal e0.2.state = false ∧
        ∃ ol'', insertSuccessorsT t (amInsert closed (t.key e0.2.state) e0.2)
            (genStates t e0.2) ol' = some ol'' ∧
          OpenList.WF t.wrapOps ol'' ∧
          (∀ e ∈ ol''.heap, e ∈ ol'.heap ∨
            ∃ x, x ∈ genStates t e0.2 ∧ e = (t.key x.state, x) ∧
              t.key x.state ∉
                (amInsert closed (t.key e0.2.state) e0.2).map Prod.fst) ∧
          tloopTr t (fuel + 1) ol closed =
            ((tloopTr t fuel ol''
                (amInsert closed (t.key e0.2.state) e0.2)).1,
             e0.2 :: (tloopTr t fuel ol''
                (amInsert closed (t.key e0.2.state) e0.2)).2.1,
             (tloopTr t fuel ol''
                (amInsert closed (t.key e0.2.state) e0.2)).2.2)))) := by
  have hunf : tloopTr t (fuel + 1) ol closed =
      (match OpenList.extractMin t.wrapOps ol with
       | (none, ol') => (SearchRes.noGoal, [], ol')
       | (some w, ol') =>
         if t.isGoal w.state then
           (SearchRes.found (reconstruct closed w, closed.length, w.state),
             [w], ol')
         else
           match insertSuccessorsT t (amInsert closed (t.key w.state) w)
               (genStates t w) ol' with
           | none => (SearchRes.panic, [w], ol')
           | some ol'' =>
             ((tloopTr t fuel ol'' (amInsert closed (t.key w.state) w)).1,
              w :: (tloopTr t fuel ol''
                (amInsert closed (t.key w.state) w)).2.1,
              (tloopTr t fuel ol''
                (amInsert closed (t.key w.state) w)).2.2)) := rfl
  rcases OpenList.extract_cases t.wrapOps ol hwf with
    ⟨hnil, hext⟩ | ⟨e0, ol', h0, hmem, hkey, hext, hwf', hperm, hnotin⟩
  · left
    refine ⟨hnil, ?_⟩
    rw [hunf, hext]
  · right
    obtain ⟨ol'', hins, hwf'', hent⟩ := insertSuccessorsT_spec t
      (amInsert closed (t.key e0.2.state) e0.2) (genStates t e0.2) ol' hwf'
    refine ⟨e0, ol', h0, hkey, hmem, hwf', hperm, hnotin, ?_⟩
    by_cases hgoal : t.isGoal e0.2.state
    · left
      refine ⟨hgoal, ?_⟩
      rw [hunf, hext]
      dsimp only
      rw [if_pos hgoal]
    · right
      refine ⟨by simpa using hgoal, ol'', hins, hwf'', hent, ?_⟩
      rw [hunf, hext]
      dsimp only
      rw [if_neg hgoal, hins]

/-- Forget the wrapper bookkeeping of a traced open list (used to relate
`traced_astar` to `untraced_astar`). -/
def olProj {K : Type u} {S : Type v} {C : Type w}
    (ol : OpenList K (TWrap K S C)) : OpenList K S :=
  ⟨ol.heap.map (fun e => (e.1, e.2.state)), ol.map⟩

/-- Forget the path component of a traced search result. -/
def projT {S : Type v} {C : Type w} :
    SearchRes (List C × Nat × S) → SearchRes (Nat × S)
  | .found r => .found (r.2.1, r.2.2)
  | .noGoal => .noGoal
  | .panic => .panic
  | .fuelOut => .fuelOut

theorem lswap_map {α : Type u} {β : Type v} (f : α → β) (l : List α)
    (i j : Nat) : lswap (l.map f) i j = (lswap l i j).map f := by
  unfold lswap
  rw [List.getElem?_map, List.getElem?_map]
  cases hi : l[i]? with
  | none => rfl
  | some a =>
    cases hj : l[j]? with
    | none => rfl
    | some b =>
      show ((l.map f).set i (f b)).set j (f a) = ((l.set i b).set j a).map f
      rw [List.map_set, List.map_set]

section Simulation

variable {K : Type u} {S : Type v} {C : Type w} [DecidableEq K]
variable (t : TOps K S C) (u : UOps K S)

theorem fAt_proj (hf : ∀ s, u.f s = t.f s)
    (l : List (K × TWrap K S C)) (x : Nat) :
    OpenList.fAt u.toAOps (l.map (fun e => (e.1, e.2.state))) x =
      OpenList.fAt t.wrapOps l x := by
  unfold OpenList.fAt
  rw [List.getElem?_map]
  cases l[x]? with
  | none => rfl
  | some e => exact hf e.2.state

theorem swapOp_proj (ol : OpenList K (TWrap K S C)) (i j : Nat) :
    (olProj ol).swapOp i j = olProj (ol.swapOp i j) := by
  unfold OpenList.swapOp olProj
  dsimp only
  rw [lswap_map, List.getElem?_map, List.getElem?_map]
  cases hi : (lswap ol.heap i j)[i]? with
  | none => rfl
  | some ei =>
    cases hj : (lswap ol.heap i j)[j]? with
    | none => rfl
    | some ej => rfl

theorem smallest_proj (hf : ∀ s, u.f s = t.f s)
    (l : List (K × TWrap K S C)) (current : Nat) :
    OpenList.smallest u.toAOps (l.map (fun e => (e.1, e.2.state))) current =
      OpenList.smallest t.wrapOps l current := by
  unfold OpenList.smallest OpenList.smallest1
  simp only [List.length_map, fAt_proj t u hf]

theorem bubleDown_proj (hf : ∀ s, u.f s = t.f s) :
    ∀ (n : Nat) (ol : OpenList K (TWrap K S C)) (current : Nat),
      ol.heap.length - current ≤ n →
      OpenList.bubleDown u.toAOps (olProj ol) current =
        olProj (OpenList.bubleDown t.wrapOps ol current) := by
  intro n
  induction n with
  | zero =>
    intro ol current hb
    conv_lhs => rw [OpenList.bubleDown]
    conv_rhs => rw [OpenList.bubleDown]
    have hsm : OpenList.smallest u.toAOps (olProj ol).heap current =
        OpenList.smallest t.wrapOps ol.heap current :=
      smallest_proj t u hf ol.heap current
    rcases OpenList.smallest_cases t.wrapOps ol.heap current with h | h
    · rw [if_pos (by rw [hsm]; exact h), if_pos h]
    · omega
  | succ n ih =>
    intro ol current hb
    conv_lhs => rw [OpenList.bubleDown]
    conv_rhs => rw [OpenList.bubleDown]
    have hsm : OpenList.smallest u.toAOps (olProj ol).heap current =
        OpenList.smallest t.wrapOps ol.heap current :=
      smallest_proj t u hf ol.heap current
    rcases OpenList.smallest_cases t.wrapOps ol.heap current with h | h
    · rw [if_pos (by rw [hsm]; exact h), if_pos h]
    · by_cases hc : OpenList.smallest t.wrapOps ol.heap current = current
      · rw [if_pos (by rw [hsm]; exact hc), if_pos hc]
      · rw [if_neg (by rw [hsm]; exact hc), if_neg hc, hsm,
          swapOp_proj ol]
        apply ih
        rw [OpenList.swapOp_length]
        omega

theorem bubbleUp_proj (hf : ∀ s, u.f s = t.f s) :
    ∀ (current : Nat) (ol : OpenList K (TWrap K S C)),
      OpenList.bubbleUp u.toAOps (olProj ol) current =
        olProj (OpenList.bubbleUp t.wrapOps ol current) := by
  intro current
  induction current using Nat.strong_induction_on with
  | _ current ih =>
    intro ol
    conv_lhs => rw [OpenList.bubbleUp]
    conv_rhs => rw [OpenList.bubbleUp]
    by_cases h0 : current = 0
    · rw [dif_pos h0, dif_pos h0]
    · rw [dif_neg h0, dif_neg h0]
      have hfa1 : OpenList.fAt u.toAOps (olProj ol).heap current =
          OpenList.fAt t.wrapOps ol.heap current := fAt_proj t u hf _ _
      have hfa2 : OpenList.fAt u.toAOps (olProj ol).heap
            ((current - 1) / 2) =
          OpenList.fAt t.wrapOps ol.heap ((current - 1) / 2) :=
        fAt_proj t u hf _ _
      rw [hfa1, hfa2]
      by_cases hge : OpenList.fAt t.wrapOps ol.heap current ≥
          OpenList.fAt t.wrapOps ol.heap ((current - 1) / 2)
      · rw [if_pos hge, if_pos hge]
      · rw [if_neg hge, if_neg hge, swapOp_proj ol]
        apply ih
        have := Nat.div_le_self (current - 1) 2
        omega

theorem pop_proj (hkey : ∀ s, u.key s = t.key s)
    (ol : OpenList K (TWrap K S C)) :
    OpenList.pop u.toAOps (olProj ol) =
      ((OpenList.pop t.wrapOps ol).1.map TWrap.state,
       olProj (OpenList.pop t.wrapOps ol).2) := by
  unfold OpenList.pop olProj
  dsimp only
  rw [List.getLast?_map]
  cases h : ol.heap.getLast? with
  | none => rfl
  | some e =>
    dsimp only [Option.map, UOps.toAOps, TOps.wrapOps]
    rw [hkey e.2.state, List.map_dropLast]

theorem extractMin_proj (hkey : ∀ s, u.key s = t.key s)
    (hf : ∀ s, u.f s = t.f s) (ol : OpenList K (TWrap K S C)) :
    OpenList.extractMin u.toAOps (olProj ol) =
      ((OpenList.extractMin t.wrapOps ol).1.map TWrap.state,
       olProj (OpenList.extractMin t.wrapOps ol).2) := by
  unfold OpenList.extractMin
  have hlen : (olProj ol).heap.length = ol.heap.length := by
    unfold olProj
    exact List.length_map _ _
  by_cases h0 : ol.heap.length = 0
  · rw [if_pos (by omega), if_pos h0]
    rfl
  · rw [if_neg (by omega), if_neg h0, hlen]
    rw [swapOp_proj ol 0 (ol.heap.length - 1),
      pop_proj t u hkey (ol.swapOp 0 (ol.heap.length - 1))]
    rcases hp : OpenList.pop t.wrapOps (ol.swapOp 0 (ol.heap.length - 1))
      with ⟨mv, ol2⟩
    dsimp only
    have hlen2 : (olProj ol2).heap.length = ol2.heap.length := by
      unfold olProj
      exact List.length_map _ _
    by_cases hz : ol2.heap.length = 0
    · rw [if_neg (by omega), if_neg (by omega)]
    · rw [if_pos (by omega), if_pos (by omega),
        bubleDown_proj t u hf ol2.heap.length ol2 0 (by omega)]

theorem insert_proj (hkey : ∀ s, u.key s = t.key s)
    (hf : ∀ s, u.f s = t.f s) (ol : OpenList K (TWrap K S C)) (k : K)
    (w : TWrap K S C) :
    OpenList.insert u.toAOps (olProj ol) k w.state =
      Option.map olProj (OpenList.insert t.wrapOps ol k w) := by
  unfold OpenList.insert
  cases hm : ol.map k with
  | none =>
    show (OpenList.insert u.toAOps (olProj ol) k w.state) = _
    unfold OpenList.insert olProj
    dsimp only
    rw [hm]
    dsimp only
    rw [List.length_map]
    have hpush : (ol.heap.map (fun e => (e.1, e.2.state))) ++ [(k, w.state)] =
        (ol.heap ++ [(k, w)]).map (fun e => (e.1, e.2.state)) := by
      rw [List.map_append]
      rfl
    rw [hpush]
    have hb := bubbleUp_proj t u hf ol.heap.length
      ⟨ol.heap ++ [(k, w)], mset ol.map k ol.heap.length⟩
    unfold olProj at hb
    dsimp only at hb
    exact congrArg some hb
  | some index =>
    show (OpenList.insert u.toAOps (olProj ol) k w.state) = _
    unfold OpenList.insert olProj
    dsimp only
    rw [hm]
    dsimp only
    rw [List.getElem?_map]
    cases hg : ol.heap[index]? with
    | none => rfl
    | some entry =>
      dsimp only [Option.map, UOps.toAOps, TOps.wrapOps]
      rw [hf w.state, hf entry.2.state]
      by_cases hlt : t.f w.state < t.f entry.2.state
      · rw [if_pos hlt, if_pos hlt]
        have hset : (ol.heap.map (fun e => (e.1, e.2.state))).set index
            (k, w.state) =
            (ol.heap.set index (k, w)).map (fun e => (e.1, e.2.state)) := by
          rw [List.map_set]
        rw [hset]
        have hb := bubbleUp_proj t u hf index
          ⟨ol.heap.set index (k, w), ol.map⟩
        unfold olProj at hb
        dsimp only at hb
        exact congrArg some hb
      · rw [if_neg hlt, if_neg hlt]

end Simulation

section Simulation2

variable {K : Type u} {S : Type v} {C : Type w} [DecidableEq K]
variable (t : TOps K S C) (u : UOps K S)

theorem genStates_states (w : TWrap K S C) :
    (genStates t w).map TWrap.state = (t.succs w.state).map Prod.fst := by
  unfold genStates
  rw [List.map_map]
  rfl

theorem insertSuccessors_proj (hkey : ∀ s, u.key s = t.key s)
    (hf : ∀ s, u.f s = t.f s) (closed : List (K × TWrap K S C)) :
    ∀ (ws : List (TWrap K S C)) (ol : OpenList K (TWrap K S C)),
      insertSuccessors u (closed.map Prod.fst) (ws.map TWrap.state)
          (olProj ol) =
        Option.map olProj (insertSuccessorsT t closed ws ol) := by
  intro ws
  induction ws with
  | nil => intro ol; rfl
  | cons x rest ih =>
    intro ol
    show insertSuccessors u (closed.map Prod.fst)
        (x.state :: rest.map TWrap.state) (olProj ol) = _
    unfold insertSuccessors insertSuccessorsT
    by_cases hmem : t.key x.state ∈ closed.map Prod.fst
    · rw [if_pos (by rw [hkey]; exact hmem),
        if_pos ((amLookup_isSome_iff closed (t.key x.state)).mpr hmem)]
      exact ih ol
    · rw [if_neg (by rw [hkey]; exact hmem),
        if_neg (fun hc =>
          hmem ((amLookup_isSome_iff closed (t.key x.state)).mp hc))]
      rw [hkey x.state, insert_proj t u hkey hf ol (t.key x.state) x]
      cases hins : OpenList.insert t.wrapOps ol (t.key x.state) x with
      | none => rfl
      | some ol1 =>
        dsimp only [Option.map]
        exact ih ol1

theorem loop_sim (hkey : ∀ s, u.key s = t.key s) (hf : ∀ s, u.f s = t.f s)
    (hgoal : ∀ s, u.isGoal s = t.isGoal s)
    (hsucc : ∀ s, u.succs s = (t.succs s).map Prod.fst) :
    ∀ (fuel : Nat) (ol : OpenList K (TWrap K S C))
      (closed : List (K × TWrap K S C)),
      uloopTr u fuel (olProj ol) (closed.map Prod.fst) =
        (projT (tloopTr t fuel ol closed).1,
         (tloopTr t fuel ol closed).2.1.map TWrap.state,
         olProj (tloopTr t fuel ol closed).2.2) := by
  intro fuel
  induction fuel with
  | zero => intro ol closed; rfl
  | succ fuel ih =>
    intro ol closed
    have hext := extractMin_proj t u hkey hf ol
    rcases htx : OpenList.extractMin t.wrapOps ol with ⟨mw, ol'⟩
    rw [htx] at hext
    dsimp only [Option.map] at hext
    cases mw with
    | none =>
      have htl : tloopTr t (fuel + 1) ol closed = (.noGoal, [], ol') := by
        conv_lhs => rw [tloopTr]
        rw [htx]
      have hul : uloopTr u (fuel + 1) (olProj ol) (closed.map Prod.fst) =
          (.noGoal, [], olProj ol') := by
        conv_lhs => rw [uloopTr]
        rw [hext]
      rw [htl, hul]
      rfl
    | some w =>
      by_cases hg : t.isGoal w.state = true
      · have htl : tloopTr t (fuel + 1) ol closed =
            (.found (reconstruct closed w, closed.length, w.state),
              [w], ol') := by
          conv_lhs => rw [tloopTr]
          rw [htx]
          dsimp only
          rw [if_pos hg]
        have hul : uloopTr u (fuel + 1) (olProj ol) (closed.map Prod.fst) =
            (.found ((closed.map Prod.fst).length, w.state), [w.state],
              olProj ol') := by
          conv_lhs => rw [uloopTr]
          rw [hext]
          dsimp only [Option.map]
          rw [if_pos (by rw [hgoal]; exact hg)]
        rw [htl, hul]
        unfold projT
        dsimp only
        rw [List.length_map]
        rfl
      · have hgf : t.isGoal w.state = false := by simpa using hg
        have hins := insertSuccessors_proj t u hkey hf
          (amInsert closed (t.key w.state) w) (genStates t w) ol'
        rw [genStates_states, amInsert_keys] at hins
        cases hti : insertSuccessorsT t (amInsert closed (t.key w.state) w)
            (genStates t w) ol' with
        | none =>
          have htl : tloopTr t (fuel + 1) ol closed = (.panic, [w], ol') := by
            conv_lhs => rw [tloopTr]
            rw [htx]
            dsimp only
            rw [if_neg (by simp [hgf]), hti]
          have hul : uloopTr u (fuel + 1) (olProj ol)
              (closed.map Prod.fst) = (.panic, [w.state], olProj ol') := by
            conv_lhs => rw [uloopTr]
            rw [hext]
            dsimp only [Option.map]
            rw [if_neg (by rw [hgoal, hgf]; simp), hkey, hsucc w.state]
            rw [hti] at hins
            rw [hins]
            rfl
          rw [htl, hul]
          rfl
        | some ol'' =>
          have htl : tloopTr t (fuel + 1) ol closed =
              ((tloopTr t fuel ol'' (amInsert closed (t.key w.state) w)).1,
               w :: (tloopTr t fuel ol''
                  (amInsert closed (t.key w.state) w)).2.1,
               (tloopTr t fuel ol''
                  (amInsert closed (t.key w.state) w)).2.2) := by
            conv_lhs => rw [tloopTr]
            rw [htx]
            dsimp only
            rw [if_neg (by simp [hgf]), hti]
          have hul : uloopTr u (fuel + 1) (olProj ol)
              (closed.map Prod.fst) =
              ((uloopTr u fuel (olProj ol'')
                  (hsInsert (closed.map Prod.fst) (t.key w.state))).1,
               w.state :: (uloopTr u fuel (olProj ol'')
                  (hsInsert (closed.map Prod.fst) (t.key w.state))).2.1,
               (uloopTr u fuel (olProj ol'')
                  (hsInsert (closed.map Prod.fst) (t.key w.state))).2.2) := by
            conv_lhs => rw [uloopTr]
            rw [hext]
            dsimp only [Option.map]
            rw [if_neg (by rw [hgoal, hgf]; simp), hkey, hsucc w.state]
            rw [hti] at hins
            rw [hins]
            rfl
          rw [htl, hul]
          have ihr := ih ol'' (amInsert closed (t.key w.state) w)
          rw [amInsert_keys] at ihr
          rw [ihr]
          rfl

end Simulation2

/-- Drop the transition labels of a traced state implementation: the
untraced view of the same search problem. -/
def eraseOps {K : Type u} {S : Type v} {C : Type w} (t : TOps K S C) :
    UOps K S :=
  ⟨t.key, t.g, t.h, t.f, t.isGoal, fun s => (t.succs s).map Prod.fst⟩

section Simulation3

variable {K : Type u} {S : Type v} {C : Type w} [DecidableEq K]
variable (t : TOps K S C) (u : UOps K S)

/-- Top-level simulation: on problems that agree after label erasure, the
untraced driver (with ghost trace) is the projection of the traced one. -/
theorem astarTr_sim (hkey : ∀ s, u.key s = t.key s) (hf : ∀ s, u.f s = t.f s)
    (hgoal : ∀ s, u.isGoal s = t.isGoal s)
    (hsucc : ∀ s, u.succs s = (t.succs s).map Prod.fst)
    (fuel : Nat) (start : S) :
    untracedAstarTr u fuel start =
      (projT (tracedAstarTr t fuel start).1,
       (tracedAstarTr t fuel start).2.1.map TWrap.state,
       olProj (tracedAstarTr t fuel start).2.2) := by
  unfold untracedAstarTr tracedAstarTr
  have hins : OpenList.insert u.toAOps OpenList.empty (t.key start) start =
      Option.map olProj (OpenList.insert t.wrapOps OpenList.empty
        (t.key start) ⟨start, none, none⟩) :=
    insert_proj t u hkey hf OpenList.empty (t.key start) ⟨start, none, none⟩
  rw [hkey start]
  cases hi : OpenList.insert t.wrapOps OpenList.empty (t.key start)
      ⟨start, none, none⟩ with
  | none =>
    rw [hi] at hins
    rw [hins]
    rfl
  | some ol =>
    rw [hi] at hins
    rw [hins]
    exact loop_sim t u hkey hf hgoal hsucc fuel ol []

/-- Top-level refinement: the untraced result is the projection of the
traced result (same outcome, iterations and final state). -/
theorem astar_refine (hkey : ∀ s, u.key s = t.key s)
    (hf : ∀ s, u.f s = t.f s) (hgoal : ∀ s, u.isGoal s = t.isGoal s)
    (hsucc : ∀ s, u.succs s = (t.succs s).map Prod.fst)
    (fuel : Nat) (start : S) :
    untracedAstar u fuel start = projT (tracedAstar t fuel start) := by
  rw [untracedAstar_eq, tracedAstar_eq,
    astarTr_sim t u hkey hf hgoal hsucc fuel start]

end Simulation3

/-- The traced loop never panics from a well-formed open list (every
`insert` is reached with a live map entry). -/
theorem tloop_no_panic {K : Type u} {S : Type v} {C : Type w} [DecidableEq K]
    (t : TOps K S C) :
    ∀ (fuel : Nat) (ol : OpenList K (TWrap K S C))
      (closed : List (K × TWrap K S C)),
      OpenList.WF t.wrapOps ol →
      (tloopTr t fuel ol closed).1 ≠ SearchRes.panic := by
  intro fuel
  induction fuel with
  | zero =>
    intro ol closed hwf
    exact fun h => SearchRes.noConfusion h
  | succ fuel ih =>
    intro ol closed hwf
    rcases tloopTr_step t fuel ol closed hwf with
      ⟨hnil, heq⟩ | ⟨e0, ol', h0, hkey, hmem, hwf', hperm, hnotin,
        ⟨hgoal, heq⟩ | ⟨hgoal, ol'', hins, hwf'', hent, heq⟩⟩
    · rw [heq]
      exact fun h => SearchRes.noConfusion h
    · rw [heq]
      exact fun h => SearchRes.noConfusion h
    · rw [heq]
      exact ih ol'' (amInsert closed (t.key e0.2.state) e0.2) hwf''

/-- The seeding `insert` of `untraced_astar` always succeeds and produces
a well-formed singleton open list satisfying the driver invariant. -/
theorem start_insert_spec {K : Type u} {S : Type v} [DecidableEq K]
    (u : UOps K S) (start : S) :
    ∃ ol0, OpenList.insert u.toAOps OpenList.empty (u.key start) start =
        some ol0 ∧ UInv u ol0 [] ∧
      ∀ e ∈ ol0.heap, e = (u.key start, start) := by
  obtain ⟨ol0, hins, hperm⟩ := OpenList.insert_of_map_none u.toAOps
    OpenList.empty (u.key start) start rfl
  have hwf : OpenList.WF u.toAOps ol0 :=
    OpenList.insert_wf u.toAOps OpenList.empty (u.key start) start rfl
      (OpenList.wf_empty u.toAOps) ol0 hins
  refine ⟨ol0, hins, ⟨hwf, ?_, List.nodup_nil⟩, ?_⟩
  · intro e _ hc
    exact absurd hc (List.not_mem_nil _)
  · intro e he
    have := hperm.mem_iff.mp he
    simpa [OpenList.empty] using this

/-- The seeding `insert` of `traced_astar` always succeeds and produces a
well-formed singleton open list holding the start wrapper. -/
theorem startT_insert_spec {K : Type u} {S : Type v} {C : Type w}
    [DecidableEq K] (t : TOps K S C) (start : S) :
    ∃ ol0, OpenList.insert t.wrapOps OpenList.empty (t.key start)
        ⟨start, none, none⟩ = some ol0 ∧
      OpenList.WF t.wrapOps ol0 ∧
      ∀ e ∈ ol0.heap, e = (t.key start, ⟨start, none, none⟩) := by
  obtain ⟨ol0, hins, hperm⟩ := OpenList.insert_of_map_none t.wrapOps
    OpenList.empty (t.key start) (⟨start, none, none⟩ : TWrap K S C) rfl
  have hwf : OpenList.WF t.wrapOps ol0 :=
    OpenList.insert_wf t.wrapOps OpenList.empty (t.key start)
      ⟨start, none, none⟩ rfl (OpenList.wf_empty t.wrapOps) ol0 hins
  refine ⟨ol0, hins, hwf, ?_⟩
  intro e he
  have := hperm.mem_iff.mp he
  simpa [OpenList.empty] using this

/-- `untraced_astar` cannot panic: every `insert` it performs uses the
state's own key, keeping the open list well-formed. -/
theorem untracedAstar_no_panic {K : Type u} {S : Type v} [DecidableEq K]
    (u : UOps K S) (fuel : Nat) (start : S) :
    untracedAstar u fuel start ≠ SearchRes.panic := by
  obtain ⟨ol0, hins, hinv, hmem⟩ := start_insert_spec u start
  rw [untracedAstar_eq]
  unfold untracedAstarTr
  rw [hins]
  exact uloop_no_panic u fuel ol0 [] hinv.wf

/-- `traced_astar` cannot panic either. -/
theorem tracedAstar_no_panic {K : Type u} {S : Type v} {C : Type w}
    [DecidableEq K] (t : TOps K S C) (fuel : Nat) (start : S) :
    tracedAstar t fuel start ≠ SearchRes.panic := by
  obtain ⟨ol0, hins, hwf, hmem⟩ := startT_insert_spec t start
  rw [tracedAstar_eq]
  unfold tracedAstarTr
  rw [hins]
  exact tloop_no_panic t fuel ol0 [] hwf

/-- The (at most one) transition label carried by a wrapper: the list
pushed for it during backtracking. -/
def chTail {K : Type u} {S : Type v} {C : Type w} (w : TWrap K S C) :
    List C :=
  match w.change with
  | some c => [c]
  | none => []

theorem chTail_rev {K : Type u} {S : Type v} {C : Type w} (w : TWrap K S C) :
    (chTail w).reverse = chTail w := by
  unfold chTail
  rcases hc : w.change with _ | c <;> rfl

/-- One successful step of the backtracking walk. -/
theorem walk_found {K : Type u} {S : Type v} {C : Type w} [DecidableEq K]
    (closed closed' : List (K × TWrap K S C)) (curr : K)
    (w : TWrap K S C) (path : List C)
    (hrem : amRemove closed curr = (some w, closed')) :
    walk closed curr path =
      match w.prev_key with
      | some pk => walk closed' pk (path ++ chTail w)
      | none => path ++ chTail w := by
  rw [walk]
  split
  · rename_i heq
    rw [hrem] at heq
    exact absurd heq (by simp)
  · rename_i w2 closed2 heq
    rw [hrem] at heq
    injection heq with h1 h2
    have hw : w = w2 := by injection h1
    subst hw
    subst h2
    cases hch : w.change with
    | none =>
      cases hpk : w.prev_key with
      | none => simp [chTail, hch, hpk]
      | some pk => simp [chTail, hch, hpk]
    | some c =>
      cases hpk : w.prev_key with
      | none => simp [chTail, hch, hpk]
      | some pk => simp [chTail, hch, hpk]

/-- A walk step on an absent key stops. -/
theorem walk_none {K : Type u} {S : Type v} {C : Type w} [DecidableEq K]
    (closed : List (K × TWrap K S C)) (curr : K)
    (path : List C) (hrem : (amRemove closed curr).1 = none) :
    walk closed curr path = path := by
  rw [walk]
  split
  · rfl
  · rename_i w2 closed2 heq
    rw [heq] at hrem
    exact absurd hrem (by simp)

/-- Grounding of a wrapper in the closed map: its backwards `prev_key`
chain runs through strictly earlier closed entries down to the unwrapped
start state, with each hop's `change` label consistent with `apply`. -/
inductive Grounded {K : Type u} {S : Type v} {C : Type w}
    (apply : S → C → S) (start : S) :
    List (K × TWrap K S C) → TWrap K S C → Prop
  | base (closed : List (K × TWrap K S C)) :
      Grounded apply start closed ⟨start, none, none⟩
  | step (closed : List (K × TWrap K S C)) (w pw : TWrap K S C) (j : Nat)
      (k : K) (c : C) (hpk : w.prev_key = some k) (hch : w.change = some c)
      (hj : closed[j]? = some (k, pw))
      (hg : Grounded apply start (closed.take j) pw)
      (hstep : apply pw.state c = w.state) :
      Grounded apply start closed w

/-- Grounding is stable under extending the closed map on the right
(which is how the loop grows it). -/
theorem Grounded.mono {K : Type u} {S : Type v} {C : Type w}
    (apply : S → C → S) (start : S)
    (closed ext : List (K × TWrap K S C)) (w : TWrap K S C)
    (h : Grounded apply start closed w) :
    Grounded apply start (closed ++ ext) w := by
  cases h with
  | base => exact .base _
  | step closed w pw j k c hpk hch hj hg hstep =>
    have hlt : j < closed.length := (List.getElem?_eq_some_iff.mp hj).1
    refine .step _ w pw j k c hpk hch ?_ ?_ hstep
    · rw [List.getElem?_append, if_pos hlt]
      exact hj
    · rw [List.take_append_eq_append_take,
        Nat.sub_eq_zero_of_le (Nat.le_of_lt hlt), List.take_zero,
        List.append_nil]
      exact hg

/-- Walking the closed map from a grounded wrapper's predecessor appends
exactly the labels of its ancestor chain (newest first), and replaying
that chain with `apply` reproduces the wrapper's state. -/
theorem walk_of_grounded {K : Type u} {S : Type v} {C : Type w}
    [DecidableEq K] (apply : S → C → S) (start : S)
    (closed : List (K × TWrap K S C)) (w : TWrap K S C)
    (h : Grounded apply start closed w) :
    ∀ (rest : List (K × TWrap K S C)) (acc : List C),
      (((closed ++ rest).map Prod.fst).Nodup) →
      ∃ q : List C,
        (match w.prev_key with
         | some pk => walk (closed ++ rest) pk acc
         | none => acc) = acc ++ q ∧
        List.foldl apply start (q.reverse ++ chTail w) = w.state := by
  induction h with
  | base closed =>
    intro rest acc hnd
    exact ⟨[], by simp, by simp [chTail]⟩
  | step closed w pw j k c hpk hch hj hg hstep ih =>
    intro rest acc hnd
    rcases List.getElem?_eq_some_iff.mp hj with ⟨hlt, hget⟩
    have hdrop : closed.drop j = (k, pw) :: closed.drop (j + 1) := by
      rw [List.drop_eq_getElem_cons hlt, hget]
    have hdecomp : closed.take j ++ (k, pw) :: closed.drop (j + 1) =
        closed := by
      rw [← hdrop, List.take_append_drop]
    have hctx : closed ++ rest =
        closed.take j ++ (k, pw) :: (closed.drop (j + 1) ++ rest) := by
      conv_lhs => rw [← hdecomp]
      rw [List.append_assoc, List.cons_append]
    have hnd2 : ((closed.take j ++
        (k, pw) :: (closed.drop (j + 1) ++ rest)).map Prod.fst).Nodup := by
      rw [← hctx]
      exact hnd
    rw [List.map_append, List.map_cons, List.nodup_middle,
      List.nodup_cons] at hnd2
    obtain ⟨hknotin, hnd3⟩ := hnd2
    have hk1 : k ∉ (closed.take j).map Prod.fst := fun hc =>
      hknotin (List.mem_append.mpr (Or.inl hc))
    have hrem : amRemove (closed ++ rest) k =
        (some pw, closed.take j ++ (closed.drop (j + 1) ++ rest)) := by
      rw [hctx]
      exact amRemove_append _ _ k pw hk1
    have hwalk := walk_found (closed ++ rest) _ k pw acc hrem
    have hnd4 : ((closed.take j ++
        (closed.drop (j + 1) ++ rest)).map Prod.fst).Nodup := by
      rw [List.map_append]
      exact hnd3
    obtain ⟨q', hq1, hq2⟩ := ih (closed.drop (j + 1) ++ rest)
      (acc ++ chTail pw) hnd4
    have hcw : chTail w = [c] := by
      unfold chTail
      rw [hch]
    refine ⟨chTail pw ++ q', ?_, ?_⟩
    · rw [hpk]
      show walk (closed ++ rest) k acc = acc ++ (chTail pw ++ q')
      rw [hwalk, hq1, List.append_assoc]
    · rw [hcw, List.reverse_append, chTail_rev, List.foldl_append, hq2]
      simpa using hstep

/-- Path reconstruction on a grounded wrapper replays, with `apply`, the
exact label sequence leading from the start state to the wrapper. -/
theorem reconstruct_grounded {K : Type u} {S : Type v} {C : Type w}
    [DecidableEq K] (apply : S → C → S) (start : S)
    (closed : List (K × TWrap K S C)) (w : TWrap K S C)
    (hg : Grounded apply start closed w)
    (hnd : (closed.map Prod.fst).Nodup) :
    List.foldl apply start (reconstruct closed w) = w.state := by
  have h := walk_of_grounded apply start closed w hg [] (chTail w)
    (by rw [List.append_nil]; exact hnd)
  rw [List.append_nil] at h
  obtain ⟨q, hq1, hq2⟩ := h
  show List.foldl apply start
    ((match w.prev_key with
      | some pk => walk closed pk (chTail w)
      | none => chTail w).reverse) = w.state
  rw [hq1, List.reverse_append, chTail_rev]
  exact hq2

/-- Loop invariant of `traced_astar` relating the open list and the
closed map: open-list well-formedness, open keys disjoint from closed
keys, duplicate-free closed keys, and every open wrapper grounded. -/
structure TInv {K : Type u} {S : Type v} {C : Type w} [DecidableEq K]
    (t : TOps K S C) (apply : S → C → S) (start : S)
    (ol : OpenList K (TWrap K S C))
    (closed : List (K × TWrap K S C)) : Prop where
  wf : OpenList.WF t.wrapOps ol
  disj : ∀ e ∈ ol.heap, e.1 ∉ closed.map Prod.fst
  nodupc : (closed.map Prod.fst).Nodup
  ground : ∀ e ∈ ol.heap, Grounded apply start closed e.2

/-- Any `found` result of the traced loop carries a path that replays to
the reported final state. -/
theorem tloop_path_correct {K : Type u} {S : Type v} {C : Type w}
    [DecidableEq K] (t : TOps K S C) (apply : S → C → S) (start : S)
    (hap : ∀ s p, p ∈ t.succs s → apply s p.2 = p.1) :
    ∀ (fuel : Nat) (ol : OpenList K (TWrap K S C))
      (closed : List (K × TWrap K S C)),
      TInv t apply start ol closed →
      ∀ path iters final,
        tloop t fuel ol closed = SearchRes.found (path, iters, final) →
        List.foldl apply start path = final := by
  intro fuel
  induction fuel with
  | zero =>
    intro ol closed hinv path iters final hrun
    exact SearchRes.noConfusion hrun
  | succ fuel ih =>
    intro ol closed hinv path iters final hrun
    rcases tloopTr_step t fuel ol closed hinv.wf with
      ⟨hnil, heq⟩ | ⟨e0, ol', h0, hkey, hmem, hwf', hperm, hnotin,
        ⟨hgoal, heq⟩ | ⟨hgoal, ol'', hins, hwf'', hent, heq⟩⟩
    · have h1 : tloop t (fuel + 1) ol closed = SearchRes.noGoal := by
        rw [← tloopTr_fst, heq]
      rw [h1] at hrun
      exact SearchRes.noConfusion hrun
    · have h1 : tloop t (fuel + 1) ol closed =
          SearchRes.found
            (reconstruct closed e0.2, closed.length, e0.2.state) := by
        rw [← tloopTr_fst, heq]
      rw [h1] at hrun
      injection hrun with hr
      injection hr with hp hr2
      injection hr2 with hi2 hf2
      rw [← hp, ← hf2]
      exact reconstruct_grounded apply start closed e0.2
        (hinv.ground e0 hmem) hinv.nodupc
    · have h1 : tloop t (fuel + 1) ol closed =
          tloop t fuel ol'' (amInsert closed (t.key e0.2.state) e0.2) := by
        rw [← tloopTr_fst, heq, tloopTr_fst]
      rw [h1] at hrun
      have hkni : e0.1 ∉ closed.map Prod.fst := hinv.disj e0 hmem
      have hclosed' : amInsert closed (t.key e0.2.state) e0.2 =
          closed ++ [(e0.1, e0.2)] := by
        rw [hkey]
        exact amInsert_of_not_mem closed e0.1 e0.2 hkni
      have hinv' : TInv t apply start ol''
          (amInsert closed (t.key e0.2.state) e0.2) := by
        refine ⟨hwf'', ?_, ?_, ?_⟩
        · intro e he
          rcases hent e he with h2 | ⟨x, hx, hex, hkx⟩
          · have hmem0 : e ∈ ol.heap :=
              hperm.mem_iff.mp (List.mem_cons_of_mem _ h2)
            have hne : e.1 ≠ e0.1 := fun hc =>
              hnotin (hc ▸ List.mem_map_of_mem Prod.fst h2)
            rw [hclosed', List.map_append]
            intro hc
            rcases List.mem_append.mp hc with h3 | h3
            · exact hinv.disj e hmem0 h3
            · exact hne (by simpa using h3)
          · rw [hex]
            exact hkx
        · rw [hclosed', List.map_append, List.nodup_append]
          refine ⟨hinv.nodupc, List.nodup_singleton _, ?_⟩
          intro x hx hx2
          have hxe : x = e0.1 := by simpa using hx2
          rw [hxe] at hx
          exact hkni hx
        · intro e he
          rcases hent e he with h2 | ⟨x, hx, hex, hkx⟩
          · have hmem0 : e ∈ ol.heap :=
              hperm.mem_iff.mp (List.mem_cons_of_mem _ h2)
            rw [hclosed']
            exact Grounded.mono apply start closed [(e0.1, e0.2)] e.2
              (hinv.ground e hmem0)
          · obtain ⟨p, hp, hxw⟩ : ∃ p, p ∈ t.succs e0.2.state ∧
                x = ⟨p.1, some (t.key e0.2.state), some p.2⟩ := by
              unfold genStates at hx
              rcases List.mem_map.mp hx with ⟨p, hp, hpx⟩
              exact ⟨p, hp, hpx.symm⟩
            rw [hex, hclosed']
            show Grounded apply start (closed ++ [(e0.1, e0.2)]) x
            rw [hxw]
            refine Grounded.step _ _ e0.2 closed.length e0.1 p.2 ?_ rfl
              ?_ ?_ ?_
            · show some (t.key e0.2.state) = some e0.1
              rw [hkey]
            · exact List.getElem?_concat_length _ _
            · rw [List.take_left]
              exact hinv.ground e0 hmem
            · exact hap e0.2.state p hp
      exact ih ol'' (amInsert closed (t.key e0.2.state) e0.2) hinv'
        path iters final hrun

/-- `untracedAstarTr` after its (always successful) seeding insert. -/
theorem untracedAstarTr_seeded {K : Type u} {S : Type v} [DecidableEq K]
    (u : UOps K S) (fuel : Nat) (start : S) (ol0 : OpenList K S)
    (hins : OpenList.insert u.toAOps OpenList.empty (u.key start) start =
      some ol0) :
    untracedAstarTr u fuel start = uloopTr u fuel ol0 [] := by
  unfold untracedAstarTr
  rw [hins]

/-- `tracedAstarTr` after its (always successful) seeding insert. -/
theorem tracedAstarTr_seeded {K : Type u} {S : Type v} {C : Type w}
    [DecidableEq K] (t : TOps K S C) (fuel : Nat) (start : S)
    (ol0 : OpenList K (TWrap K S C))
    (hins : OpenList.insert t.wrapOps OpenList.empty (t.key start)
      ⟨start, none, none⟩ = some ol0) :
    tracedAstarTr t fuel start = tloopTr t fuel ol0 [] := by
  unfold tracedAstarTr
  rw [hins]

/-- Dropping the path component preserves and reflects each outcome
constructor. -/
theorem projT_cases {S : Type v} {C : Type w}
    (r : SearchRes (List C × Nat × S)) :
    (projT r = SearchRes.noGoal ↔ r = SearchRes.noGoal) ∧
    (projT r = SearchRes.panic ↔ r = SearchRes.panic) ∧
    (projT r = SearchRes.fuelOut ↔ r = SearchRes.fuelOut) ∧
    ((∃ x, projT r = SearchRes.found x) ↔
      ∃ y, r = SearchRes.found y) := by
  cases r <;> simp [projT]

/-- Top-level form of the exhaustion characterisation, untraced driver. -/
theorem untracedAstar_noGoal_iff {K : Type u} {S : Type v} [DecidableEq K]
    (u : UOps K S) (fuel : Nat) (start : S)
    (hfo : (untracedAstarTr u fuel start).1 ≠ SearchRes.fuelOut) :
    (untracedAstar u fuel start = SearchRes.noGoal ↔
      (untracedAstarTr u fuel start).2.2.heap = [] ∧
      ∀ s ∈ (untracedAstarTr u fuel start).2.1, u.isGoal s = false) := by
  obtain ⟨ol0, hins, hinv, hmem⟩ := start_insert_spec u start
  rw [untracedAstar_eq, untracedAstarTr_seeded u fuel start ol0 hins] at *
  exact uloop_noGoal_iff u fuel ol0 [] hinv.wf hfo

/-- Top-level form of the exhaustion characterisation, traced driver
(obtained through the simulation with the label-erased problem). -/
theorem tracedAstar_noGoal_iff {K : Type u} {S : Type v} {C : Type w}
    [DecidableEq K] (t : TOps K S C) (fuel : Nat) (start : S)
    (hfo : (tracedAstarTr t fuel start).1 ≠ SearchRes.fuelOut) :
    (tracedAstar t fuel start = SearchRes.noGoal ↔
      (tracedAstarTr t fuel start).2.2.heap = [] ∧
      ∀ w ∈ (tracedAstarTr t fuel start).2.1,
        t.isGoal w.state = false) := by
  have hsim := astarTr_sim t (eraseOps t) (fun _ => rfl) (fun _ => rfl)
    (fun _ => rfl) (fun _ => rfl) fuel start
  have hfo' : (untracedAstarTr (eraseOps t) fuel start).1 ≠
      SearchRes.fuelOut := by
    rw [hsim]
    intro hc
    exact hfo (((projT_cases _).2.2.1).mp hc)
  have h := untracedAstar_noGoal_iff (eraseOps t) fuel start hfo'
  rw [astar_refine t (eraseOps t) (fun _ => rfl) (fun _ => rfl)
    (fun _ => rfl) (fun _ => rfl) fuel start, hsim] at h
  rw [(projT_cases (tracedAstar t fuel start)).1] at h
  rw [h]
  dsimp only [olProj]
  constructor
  · rintro ⟨hnil, hall⟩
    refine ⟨List.map_eq_nil_iff.mp hnil, ?_⟩
    intro w hw
    exact hall w.state (List.mem_map_of_mem TWrap.state hw)
  · rintro ⟨hnil, hall⟩
    refine ⟨by rw [hnil]; rfl, ?_⟩
    intro s hs
    obtain ⟨w, hw, hws⟩ := List.mem_map.mp hs
    rw [← hws]
    exact hall w hw

/-- Top-level termination, untraced driver: ample fuel over a finite key
space cannot run out, so the run ends in `found` or `noGoal`. -/
theorem untracedAstar_terminates {K : Type u} {S : Type v} [DecidableEq K]
    (u : UOps K S) (KS : Finset K)
    (hsucc : ∀ s s', s' ∈ u.succs s → u.key s' ∈ KS)
    (fuel : Nat) (start : S) (hstart : u.key start ∈ KS)
    (hfuel : KS.card < fuel) :
    untracedAstar u fuel start = SearchRes.noGoal ∨
      ∃ r, untracedAstar u fuel start = SearchRes.found r := by
  obtain ⟨ol0, hins, hinv, hmem⟩ := start_insert_spec u start
  have hterm : (uloopTr u fuel ol0 []).1 ≠ SearchRes.fuelOut := by
    apply uloop_termination u KS hsucc fuel ol0 [] hinv
    · intro e he
      rw [hmem e he]
      exact hstart
    · intro k hk
      exact absurd hk (List.not_mem_nil k)
    · simpa using hfuel
  have hnp : (uloopTr u fuel ol0 []).1 ≠ SearchRes.panic :=
    uloop_no_panic u fuel ol0 [] hinv.wf
  rw [untracedAstar_eq, untracedAstarTr_seeded u fuel start ol0 hins]
  cases hcase : (uloopTr u fuel ol0 []).1 with
  | found r => exact Or.inr ⟨r, rfl⟩
  | noGoal => exact Or.inl rfl
  | panic => exact absurd hcase hnp
  | fuelOut => exact absurd hcase hterm

/-- Top-level termination, traced driver. -/
theorem tracedAstar_terminates {K : Type u} {S : Type v} {C : Type w}
    [DecidableEq K] (t : TOps K S C) (KS : Finset K)
    (hsucc : ∀ s p, p ∈ t.succs s → t.key p.1 ∈ KS)
    (fuel : Nat) (start : S) (hstart : t.key start ∈ KS)
    (hfuel : KS.card < fuel) :
    tracedAstar t fuel start = SearchRes.noGoal ∨
      ∃ r, tracedAstar t fuel start = SearchRes.found r := by
  have hsucc' : ∀ s s', s' ∈ (eraseOps t).succs s →
      (eraseOps t).key s' ∈ KS := by
    intro s s' hs'
    obtain ⟨p, hp, hps⟩ := List.mem_map.mp hs'
    rw [← hps]
    exact hsucc s p hp
  have h := untracedAstar_terminates (eraseOps t) KS hsucc' fuel start
    hstart hfuel
  rw [astar_refine t (eraseOps t) (fun _ => rfl) (fun _ => rfl)
    (fun _ => rfl) (fun _ => rfl) fuel start] at h
  rcases h with h | ⟨r, hr⟩
  · exact Or.inl (((projT_cases _).1).mp h)
  · have : ∃ y, tracedAstar t fuel start = SearchRes.found y :=
      ((projT_cases _).2.2.2).mp ⟨r, hr⟩
    exact Or.inr this

/-! Concrete instances used by witnesses and counterexamples. -/

/-- Three-state chain `0 → 1 → 2` (goal `2`), unit edge costs, zero
heuristic, distinct keys; transition labels `0` and `1`. -/
def c1t : TOps Nat Nat Nat :=
  ⟨fun s => s, fun s => s, fun _ => 0, fun s => s, fun s => decide (s = 2),
   fun s => if s = 0 then [(1, 0)] else if s = 1 then [(2, 1)] else []⟩

/-- Applying a transition label of `c1t`: label `c` leads to state
`c + 1`. -/
def c1apply : Nat → Nat → Nat := fun _ c => c + 1

/-- Keys and `f()` read off the stored value itself. -/
def c2a : AOps Nat Nat := ⟨fun k => k, fun v => v⟩

/-- Same well-behaved ops for the heap-order witness. -/
def c3a : AOps Nat Nat := ⟨fun k => k, fun v => v⟩

/-- The open list left by `insert(1,10); insert(2,20); insert(3,30)`. -/
def c3ol : OpenList Nat Nat :=
  ⟨[(1, 10), (2, 20), (3, 30)],
   mset (mset (mset (fun _ => none) 1 0) 2 1) 3 2⟩

/-- The chain of claim C5 (identical shape to `c1t`, kept separate). -/
def c5t : TOps Nat Nat Nat :=
  ⟨fun s => s, fun s => s, fun _ => 0, fun s => s, fun s => decide (s = 2),
   fun s => if s = 0 then [(1, 0)] else if s = 1 then [(2, 1)] else []⟩

/-- A problem with no successors and no goal (search exhausts at once). -/
def c6u : UOps Nat Nat :=
  ⟨fun s => s, fun _ => 0, fun _ => 0, fun _ => 0, fun _ => false,
   fun _ => []⟩

/-- Traced version of `c6u`. -/
def c6t : TOps Nat Nat Nat :=
  ⟨fun s => s, fun _ => 0, fun _ => 0, fun _ => 0, fun _ => false,
   fun _ => []⟩

/-- A contract-violating state implementation: `key()` always returns
`0`, so inserting under map key `1` leaves a dangling map entry after
`extract_min` (which removes the map entry for `value.key() = 0`). -/
def c8a : AOps Nat Nat := ⟨fun _ => 0, fun v => v⟩

/-- C1: for every start state on which `traced_astar` returns a result,
applying, in order, the transition labels of the returned path to the
start state reproduces the returned final state (so the path is a valid
route of exactly `path.length` edges from the start to the goal),
assuming the caller's `generate_traced_successors` is consistent with
transition application (`apply`). -/
theorem C1_path_validity {K : Type u} {S : Type v} {C : Type w}
    [DecidableEq K] (t : TOps K S C) (apply : S → C → S)
    (hap : ∀ s p, p ∈ t.succs s → apply s p.2 = p.1)
    (fuel : Nat) (start : S) (path : List C) (iters : Nat) (final : S)
    (hrun : tracedAstar t fuel start =
      SearchRes.found (path, iters, final)) :
    List.foldl apply start path = final := by
  obtain ⟨ol0, hins, hwf0, hmem0⟩ := startT_insert_spec t start
  unfold tracedAstar at hrun
  rw [hins] at hrun
  have hrun' : tloop t fuel ol0 [] =
      SearchRes.found (path, iters, final) := hrun
  have htinv : TInv t apply start ol0 [] := by
    refine ⟨hwf0, ?_, by simp, ?_⟩
    · intro e he hc
      simp at hc
    · intro e he
      rw [hmem0 e he]
      exact Grounded.base []
  exact tloop_path_correct t apply start hap fuel ol0 [] htinv
    path iters final hrun'

theorem C1_path_validity_witness :
    List.foldl c1apply 0 [0, 1] = 2 :=
  C1_path_validity c1t c1apply
    (by
      intro s p hp
      simp only [c1t] at hp
      split at hp
      · have hp2 : p = (1, 0) := by simpa using hp
        subst hp2
        rfl
      · split at hp
        · have hp2 : p = (2, 1) := by simpa using hp
          subst hp2
          rfl
        · simp at hp)
    3 0 [0, 1] 2 2
    (by
      simp [tracedAstar, tloop, OpenList.insert, OpenList.extractMin,
        OpenList.pop, OpenList.bubbleUp, OpenList.bubleDown,
        OpenList.smallest, OpenList.smallest1, OpenList.swapOp,
        OpenList.fAt, OpenList.empty, lswap, mset, mdel,
        insertSuccessorsT, genStates, amInsert, amLookup, amRemove, walk,
        reconstruct, TOps.wrapOps, c1t])

/-- C2: `insert(k, s)` appends when no entry with key `k` exists,
replaces the existing entry exactly when the new `f()` is strictly
smaller, and discards the new state otherwise; consequently, after any
sequence of `insert` calls from `OpenList::new`, the open list holds at
most one entry per key, and that entry carries the numerically smallest
`f()` ever inserted for its key. -/
theorem C2_insert_semantics {K : Type u} {V : Type v} [DecidableEq K]
    (a : AOps K V) :
    (∀ (ol : OpenList K V) (k : K) (v : V), ol.map k = none →
      ∃ ol', OpenList.insert a ol k v = some ol' ∧
        List.Perm ol'.heap ((k, v) :: ol.heap)) ∧
    (∀ (ol : OpenList K V) (k : K) (v : V) (index : Nat)
        (entry : K × V),
      ol.map k = some index → ol.heap[index]? = some entry →
      (a.f v < a.f entry.2 →
        ∃ ol', OpenList.insert a ol k v = some ol' ∧
          List.Perm ol'.heap ((k, v) :: ol.heap.eraseIdx index)) ∧
      (¬a.f v < a.f entry.2 → OpenList.insert a ol k v = some ol)) ∧
    (∀ (l : List (K × V)) (ol' : OpenList K V),
      OpenList.runInserts a l (some OpenList.empty) = some ol' →
      (ol'.heap.map Prod.fst).Nodup ∧
      ∀ e ∈ ol'.heap, some (a.f e.2) = OpenList.bestF a l e.1) := by
  refine ⟨?_, ?_, ?_⟩
  · intro ol k v hmap
    exact OpenList.insert_of_map_none a ol k v hmap
  · intro ol k v index entry hmap hget
    constructor
    · intro hlt
      exact OpenList.insert_of_map_some_lt a ol k v index entry hmap
        hget hlt
    · intro hge
      exact OpenList.insert_of_map_some_ge a ol k v index entry hmap
        hget hge
  · intro l ol' hrun
    obtain ⟨ol'', hrun'', hinv⟩ := OpenList.runInserts_inv a l []
      OpenList.empty (OpenList.insInv_empty a)
    rw [hrun''] at hrun
    injection hrun with hrun
    subst hrun
    obtain ⟨hwfm, hiff, hbest⟩ := hinv
    refine ⟨OpenList.wfm_keys_nodup hwfm, ?_⟩
    intro e he
    have := hbest e he
    simpa using this

theorem C2_insert_semantics_witness :
    ∃ ol', OpenList.insert c2a OpenList.empty 1 10 = some ol' ∧
      List.Perm ol'.heap
        ((1, 10) :: (OpenList.empty (K := Nat) (V := Nat)).heap) :=
  (C2_insert_semantics c2a).1 OpenList.empty 1 10 rfl

/-- C3: after any sequence of `insert`/`extract_min` calls from
`OpenList::new`, the heap array is in binary min-heap order: each
entry's `f()` is at most the `f()` of each of its existing children (at
indices `2i+1` and `2i+2`). -/
theorem C3_heap_order {K : Type u} {V : Type v} [DecidableEq K]
    (a : AOps K V) (ops : List (HeapOp K V)) (ol : OpenList K V)
    (hrun : runOps a ops (some OpenList.empty) = some ol) (i : Nat) :
    (2 * i + 1 < ol.heap.length →
      OpenList.fAt a ol.heap i ≤ OpenList.fAt a ol.heap (2 * i + 1)) ∧
    (2 * i + 2 < ol.heap.length →
      OpenList.fAt a ol.heap i ≤ OpenList.fAt a ol.heap (2 * i + 2)) := by
  have hord : OpenList.hord a ol.heap := by
    apply runOps_hord a ops (some OpenList.empty) ?_ ol hrun
    intro ol0 h0
    injection h0 with h0
    subst h0
    intro j hj hjl
    simp [OpenList.empty] at hjl
  constructor
  · intro h1
    have h2 := hord (2 * i + 1) (by omega) h1
    have heq : (2 * i + 1 - 1) / 2 = i := by omega
    rwa [heq] at h2
  · intro h1
    have h2 := hord (2 * i + 2) (by omega) h1
    have heq : (2 * i + 2 - 1) / 2 = i := by omega
    rwa [heq] at h2

theorem C3_heap_order_witness :
    2 * 0 + 1 < c3ol.heap.length ∧
    OpenList.fAt c3a c3ol.heap 0 ≤ OpenList.fAt c3a c3ol.heap (2 * 0 + 1) :=
  ⟨by decide,
   (C3_heap_order c3a [HeapOp.ins 1 10, HeapOp.ins 2 20, HeapOp.ins 3 30]
      c3ol
      (by
        simp [runOps, OpenList.insert, OpenList.bubbleUp, OpenList.fAt,
          OpenList.empty, OpenList.swapOp, lswap, mset, c3a, c3ol])
      0).1 (by decide)⟩

/-- C4: in every run of `untraced_astar` or `traced_astar`, the keys of
the states extracted from the open list (the expanded states, in order)
are pairwise distinct: a key once closed is never expanded again. -/
theorem C4_no_reexpansion {K : Type u} {S : Type v} {C : Type w}
    [DecidableEq K] (u : UOps K S) (t : TOps K S C) (fuel : Nat)
    (s1 s2 : S) :
    ((untracedAstarTr u fuel s1).2.1.map u.key).Nodup ∧
    ((tracedAstarTr t fuel s2).2.1.map
      (fun w => t.key w.state)).Nodup := by
  constructor
  · obtain ⟨ol0, hins, hinv, hmem⟩ := start_insert_spec u s1
    rw [untracedAstarTr_seeded u fuel s1 ol0 hins]
    exact (uloop_trace_spec u fuel ol0 [] hinv).1
  · have hsim := astarTr_sim t (eraseOps t) (fun _ => rfl) (fun _ => rfl)
      (fun _ => rfl) (fun _ => rfl) fuel s2
    obtain ⟨ol0, hins, hinv, hmem⟩ := start_insert_spec (eraseOps t) s2
    have h := (uloop_trace_spec (eraseOps t) fuel ol0 [] hinv).1
    rw [← untracedAstarTr_seeded (eraseOps t) fuel s2 ol0 hins, hsim] at h
    dsimp only at h
    rw [List.map_map] at h
    exact h

/-- C5 counterexample: on the three-state chain with unit costs and zero
heuristic, `traced_astar` does not return `iterations = 1` (two states,
the start and the middle one, are expanded before the goal is popped). -/
theorem C5_chain_counterexample :
    tracedAstar c5t 3 0 ≠ SearchRes.found ([0, 1], 1, 2) := by
  have h : tracedAstar c5t 3 0 = SearchRes.found ([0, 1], 2, 2) := by
    simp [tracedAstar, tloop, OpenList.insert, OpenList.extractMin,
      OpenList.pop, OpenList.bubbleUp, OpenList.bubleDown,
      OpenList.smallest, OpenList.smallest1, OpenList.swapOp,
      OpenList.fAt, OpenList.empty, lswap, mset, mdel, insertSuccessorsT,
      genStates, amInsert, amLookup, amRemove, walk, reconstruct,
      TOps.wrapOps, c5t]
  rw [h]
  simp

/-- C5 amended: the chain scenario returns the two-element path
`[start→A, A→goal]` as claimed, but with `iterations = 2` (both `start`
and `A` are expanded before the goal is popped; `iterations` counts the
closed set at that moment). -/
theorem C5_chain_amended :
    tracedAstar c5t 3 0 = SearchRes.found ([0, 1], 2, 2) := by
  simp [tracedAstar, tloop, OpenList.insert, OpenList.extractMin,
    OpenList.pop, OpenList.bubbleUp, OpenList.bubleDown,
    OpenList.smallest, OpenList.smallest1, OpenList.swapOp, OpenList.fAt,
    OpenList.empty, lswap, mset, mdel, insertSuccessorsT, genStates,
    amInsert, amLookup, amRemove, walk, reconstruct, TOps.wrapOps, c5t]

/-- C6: whenever the run completes within its fuel, both drivers return
the absent result (`noGoal`, Rust `None`) exactly when the open list was
exhausted without any extracted state satisfying `is_goal()`; and no
other non-success outcome exists (in particular no panic). -/
theorem C6_none_iff_exhausted {K : Type u} {S : Type v} {C : Type w}
    [DecidableEq K] (u : UOps K S) (t : TOps K S C) (fuel1 fuel2 : Nat)
    (s1 s2 : S)
    (hfo1 : (untracedAstarTr u fuel1 s1).1 ≠ SearchRes.fuelOut)
    (hfo2 : (tracedAstarTr t fuel2 s2).1 ≠ SearchRes.fuelOut) :
    (untracedAstar u fuel1 s1 ≠ SearchRes.panic ∧
      (untracedAstar u fuel1 s1 = SearchRes.noGoal ↔
        (untracedAstarTr u fuel1 s1).2.2.heap = [] ∧
        ∀ x ∈ (untracedAstarTr u fuel1 s1).2.1, u.isGoal x = false)) ∧
    (tracedAstar t fuel2 s2 ≠ SearchRes.panic ∧
      (tracedAstar t fuel2 s2 = SearchRes.noGoal ↔
        (tracedAstarTr t fuel2 s2).2.2.heap = [] ∧
        ∀ w ∈ (tracedAstarTr t fuel2 s2).2.1,
          t.isGoal w.state = false)) :=
  ⟨⟨untracedAstar_no_panic u fuel1 s1,
    untracedAstar_noGoal_iff u fuel1 s1 hfo1⟩,
   ⟨tracedAstar_no_panic t fuel2 s2,
    tracedAstar_noGoal_iff t fuel2 s2 hfo2⟩⟩

theorem C6_none_iff_exhausted_witness :
    (untracedAstar c6u 2 0 ≠ SearchRes.panic ∧
      (untracedAstar c6u 2 0 = SearchRes.noGoal ↔
        (untracedAstarTr c6u 2 0).2.2.heap = [] ∧
        ∀ x ∈ (untracedAstarTr c6u 2 0).2.1, c6u.isGoal x = false)) ∧
    (tracedAstar c6t 2 0 ≠ SearchRes.panic ∧
      (tracedAstar c6t 2 0 = SearchRes.noGoal ↔
        (tracedAstarTr c6t 2 0).2.2.heap = [] ∧
        ∀ w ∈ (tracedAstarTr c6t 2 0).2.1,
          c6t.isGoal w.state = false)) :=
  C6_none_iff_exhausted c6u c6t 2 2 0 0
    (by
      have h : (untracedAstarTr c6u 2 0).1 = SearchRes.noGoal := by
        simp [untracedAstarTr, uloopTr, OpenList.insert,
          OpenList.extractMin, OpenList.pop, OpenList.bubbleUp,
          OpenList.bubleDown, OpenList.smallest, OpenList.smallest1,
          OpenList.swapOp, OpenList.fAt, OpenList.empty, lswap, mset,
          mdel, insertSuccessors, hsInsert, c6u]
      rw [h]
      simp)
    (by
      have h : (tracedAstarTr c6t 2 0).1 = SearchRes.noGoal := by
        simp [tracedAstarTr, tloopTr, OpenList.insert,
          OpenList.extractMin, OpenList.pop, OpenList.bubbleUp,
          OpenList.bubleDown, OpenList.smallest, OpenList.smallest1,
          OpenList.swapOp, OpenList.fAt, OpenList.empty, lswap, mset,
          mdel, insertSuccessorsT, genStates, amInsert, amLookup,
          TOps.wrapOps, c6t]
      rw [h]
      simp)

/-- C7: over a finite key space `KS` closed under the successor
functions and containing the start key, both drivers terminate with a
definite answer — a goal result or the absent result — given fuel
exceeding `KS.card` (each key is expanded at most once, bounding the
loop). -/
theorem C7_termination {K : Type u} {S : Type v} {C : Type w}
    [DecidableEq K] (u : UOps K S) (t : TOps K S C) (KS : Finset K)
    (hsucc1 : ∀ s s', s' ∈ u.succs s → u.key s' ∈ KS)
    (hsucc2 : ∀ s p, p ∈ t.succs s → t.key p.1 ∈ KS)
    (fuel : Nat) (s1 s2 : S) (hstart1 : u.key s1 ∈ KS)
    (hstart2 : t.key s2 ∈ KS) (hfuel : KS.card < fuel) :
    (untracedAstar u fuel s1 = SearchRes.noGoal ∨
      ∃ r, untracedAstar u fuel s1 = SearchRes.found r) ∧
    (tracedAstar t fuel s2 = SearchRes.noGoal ∨
      ∃ r, tracedAstar t fuel s2 = SearchRes.found r) :=
  ⟨untracedAstar_terminates u KS hsucc1 fuel s1 hstart1 hfuel,
   tracedAstar_terminates t KS hsucc2 fuel s2 hstart2 hfuel⟩

theorem C7_termination_witness :
    (untracedAstar c6u 2 0 = SearchRes.noGoal ∨
      ∃ r, untracedAstar c6u 2 0 = SearchRes.found r) ∧
    (tracedAstar c6t 2 0 = SearchRes.noGoal ∨
      ∃ r, tracedAstar c6t 2 0 = SearchRes.found r) :=
  C7_termination c6u c6t {0}
    (by intro s s' hs'; simp [c6u] at hs')
    (by intro s p hp; simp [c6t] at hp)
    2 0 0 (by decide) (by decide) (by decide)

/-- C8 counterexample: with a contract-violating state implementation
(`key()` constantly `0`), inserting under map key `1`, extracting the
minimum, and inserting under key `1` again makes `OpenList::insert`
index out of bounds (modelled as `none`): the engine can panic, contrary
to the claim. -/
theorem C8_no_panic_counterexample :
    OpenList.insert c8a OpenList.empty 1 5 =
      some ⟨[(1, 5)], mset (fun _ => none) 1 0⟩ ∧
    OpenList.insert c8a
      (OpenList.extractMin c8a
        ⟨[(1, 5)], mset (fun _ => none) 1 0⟩).2 1 6 = none :=
  ⟨by
    simp [OpenList.insert, OpenList.bubbleUp, OpenList.fAt,
      OpenList.empty, OpenList.swapOp, lswap, c8a],
   by
    simp [OpenList.insert, OpenList.extractMin, OpenList.pop,
      OpenList.bubleDown, OpenList.bubbleUp, OpenList.smallest,
      OpenList.smallest1, OpenList.swapOp, OpenList.fAt, lswap, mset,
      mdel, c8a]⟩

/-- C8 amended: the search drivers themselves never panic — they always
insert a state under its own `key()`, which keeps the open list
well-formed; only direct `OpenList::insert` calls with a mismatched key
(as in the counterexample) can go out of bounds. -/
theorem C8_no_panic_amended {K : Type u} {S : Type v} {C : Type w}
    [DecidableEq K] (u : UOps K S) (t : TOps K S C) (fuel : Nat)
    (s1 s2 : S) :
    untracedAstar u fuel s1 ≠ SearchRes.panic ∧
    tracedAstar t fuel s2 ≠ SearchRes.panic :=
  ⟨untracedAstar_no_panic u fuel s1, tracedAstar_no_panic t fuel s2⟩

/-- C9: for state implementations agreeing on `key`/`g`/`h`/`f`/
`is_goal` and on successors after dropping transition labels,
`traced_astar` refines `untraced_astar`: erasing the path from the
traced result gives exactly the untraced result (same `Some`/`None`
outcome, same iterations count, same final state). -/
theorem C9_refinement {K : Type u} {S : Type v} {C : Type w}
    [DecidableEq K] (t : TOps K S C) (u : UOps K S)
    (hkey : ∀ s, u.key s = t.key s) (hg : ∀ s, u.g s = t.g s)
    (hh : ∀ s, u.h s = t.h s) (hf : ∀ s, u.f s = t.f s)
    (hgoal : ∀ s, u.isGoal s = t.isGoal s)
    (hsucc : ∀ s, u.succs s = (t.succs s).map Prod.fst)
    (fuel : Nat) (start : S) :
    projT (tracedAstar t fuel start) = untracedAstar u fuel start :=
  (astar_refine t u hkey hf hgoal hsucc fuel start).symm

theorem C9_refinement_witness :
    projT (tracedAstar c6t 2 0) = untracedAstar c6u 2 0 :=
  C9_refinement c6t c6u (fun _ => rfl) (fun _ => rfl) (fun _ => rfl)
    (fun _ => rfl) (fun _ => rfl) (fun _ => rfl) 2 0

/-- C10: both drivers are deterministic — they are pure functions of the
(pure) state implementation, the fuel and the start state, so two runs
on equal start states return identical results, including the traced
path. -/
theorem C10_determinism {K : Type u} {S : Type v} {C : Type w}
    [DecidableEq K] (u : UOps K S) (t : TOps K S C) (fuel : Nat)
    (s1 s2 : S) (h : s1 = s2) :
    untracedAstar u fuel s1 = untracedAstar u fuel s2 ∧
    tracedAstar t fuel s1 = tracedAstar t fuel s2 := by
  rw [h]
  exact ⟨rfl, rfl⟩

theorem C10_determinism_witness :
    untracedAstar c6u 1 0 = untracedAstar c6u 1 0 ∧
    tracedAstar c6t 1 0 = tracedAstar c6t 1 0 :=
  C10_determinism c6u c6t 1 0 0 rfl
